import Mathlib

/-!
Verification development for the unicode3 repository: a Unicode Character
Database ingestion pipeline (scripts/parse-ucd.ts, scripts/build-db.ts) and a
browser-side search worker with a relevance ranker (the flexsearch worker
module).  JavaScript strings are modelled as `List Char`; JavaScript numbers
appearing as codepoints are modelled exactly as `Int` (the pipeline never
reaches the 2^53 precision boundary), with `Option Int` where a value may be
the JavaScript `NaN` produced by a failed `parseInt`.  `String.prototype`
operations are modelled on the ASCII range, which covers every character the
UCD files and the ranker manipulate.
-/

namespace Unicode3

/-- Whitespace test used to model the `\s` regex class and `String.trim` on
the ASCII range (space, tab, line feed, vertical tab, form feed, carriage
return). -/
def isJsSpace (c : Char) : Bool :=
  c = ' ' || c = '\t' || c = '\n' || c = '\x0b' || c = '\x0c' || c = '\r'

/-- Word-character test for the `\w` regex class: ASCII letters, digits and
underscore. -/
def isWordChar (c : Char) : Bool :=
  ('a' ≤ c && c ≤ 'z') || ('A' ≤ c && c ≤ 'Z') || ('0' ≤ c && c ≤ '9') || c = '_'

/-- Case-insensitive hexadecimal digit test, modelling `[0-9A-F]` under the
`i` regex flag. -/
def isHexDigitCI (c : Char) : Bool :=
  ('0' ≤ c && c ≤ '9') || ('A' ≤ c && c ≤ 'F') || ('a' ≤ c && c ≤ 'f')

/-- Tests whether `s` begins with `pat` (models `String.prototype.startsWith`
and is the building block for suffix tests). -/
def leadsWith : List Char → List Char → Bool
  | _, [] => true
  | [], _ :: _ => false
  | c :: s, p :: ps => c = p && leadsWith s ps

/-- Tests whether `s` ends with `pat` (models `String.prototype.endsWith`). -/
def endsWithL (s pat : List Char) : Bool :=
  leadsWith s.reverse pat.reverse

/-- True when `pat` occurs in `hay` starting at index `i`; this is the notion
of occurrence underlying `String.prototype.indexOf`. -/
def occursAtB (hay pat : List Char) (i : ℕ) : Bool :=
  decide (i + pat.length ≤ hay.length) && decide ((hay.drop i).take pat.length = pat)

/-- Fuel-driven scan for the first occurrence of `pat` in `hay` at an index
`≥ i`; with fuel at least `hay.length + 1 - i` this is exactly
`hay.indexOf(pat, i)` (with `none` for the JavaScript result `-1`). -/
def idxFindF (hay pat : List Char) : ℕ → ℕ → Option ℕ
  | 0, _ => none
  | fuel + 1, i =>
    if i + pat.length ≤ hay.length then
      if occursAtB hay pat i then some i else idxFindF hay pat fuel (i + 1)
    else none

/-- Models `hay.indexOf(pat, start)` for the argument ranges the embedded
code uses (`0 ≤ start ≤ hay.length + 1`). -/
def jsIndexOf (hay pat : List Char) (start : ℕ) : Option ℕ :=
  idxFindF hay pat (hay.length + 1) start

/-- Models `s.replace(pat, rep)` with a plain-string pattern: JavaScript
replaces only the first occurrence, or returns the string unchanged when the
pattern does not occur. -/
def jsReplaceFirst (s pat rep : List Char) : List Char :=
  match jsIndexOf s pat 0 with
  | none => s
  | some i => s.take i ++ rep ++ s.drop (i + pat.length)

/-- Splits a character list on a separator character, modelling
`String.prototype.split` with a single-character separator: the result is
never empty and empty segments are preserved. -/
def splitOnChar (sep : Char) : List Char → List (List Char)
  | [] => [[]]
  | c :: rest =>
    let r := splitOnChar sep rest
    if c = sep then [] :: r
    else
      match r with
      | h :: t => (c :: h) :: t
      | [] => [[c]]

/-- Uppercasing of a modelled string, `String.prototype.toUpperCase` on the
ASCII range (`Char.toUpper` maps exactly the letters a-z to A-Z). -/
def upperL (s : List Char) : List Char :=
  s.map Char.toUpper

/-- The line filter every parser in scripts/parse-ucd.ts applies:
`content.split(LF).filter(line => line.trim() && !line.startsWith(HASH))`.
A line is kept when it has a non-whitespace character and does not begin
with the comment character. -/
def linesFilter (ls : List (List Char)) : List (List Char) :=
  ls.filter (fun l => !(l.all isJsSpace) && !(leadsWith l ['#']))

/-- Value of a single hexadecimal digit (0 on non-digits, never reached on
the runs this is applied to). -/
def hexDigitVal (c : Char) : ℕ :=
  if '0' ≤ c ∧ c ≤ '9' then c.toNat - 48
  else if 'A' ≤ c ∧ c ≤ 'F' then c.toNat - 55
  else if 'a' ≤ c ∧ c ≤ 'f' then c.toNat - 87
  else 0

/-- Value of a hexadecimal digit run, most significant digit first. -/
def hexValNat (l : List Char) : ℕ :=
  l.foldl (fun a c => 16 * a + hexDigitVal c) 0

/-- Recognises a leading `0x` or `0X`, which `parseInt(s, 16)` skips. -/
def leads0x : List Char → Bool
  | '0' :: 'x' :: _ => true
  | '0' :: 'X' :: _ => true
  | _ => false

/-- The unsigned core of `parseInt(s, 16)`: optional `0x` prefix, then the
maximal leading run of hexadecimal digits; `none` models the result `NaN`
when that run is empty. -/
def jsParseIntCore (r : List Char) : Option ℕ :=
  let r2 := if leads0x r then r.drop 2 else r
  let ds := r2.takeWhile isHexDigitCI
  if ds = [] then none else some (hexValNat ds)

/-- Models `parseInt(s, 16)`: skip leading whitespace, optional sign,
optional `0x`, then the maximal hexadecimal digit run; `none` models `NaN`.
Values are exact integers (the pipeline stays far below 2^53, where
JavaScript numbers are exact). -/
def jsParseIntHex (s : List Char) : Option ℤ :=
  let s1 := s.dropWhile isJsSpace
  match s1 with
  | '-' :: r => (jsParseIntCore r).map (fun n => -(n : ℤ))
  | '+' :: r => (jsParseIntCore r).map (fun n => (n : ℤ))
  | _ => (jsParseIntCore s1).map (fun n => (n : ℤ))

/-- Lowercase hexadecimal rendering of a natural number, modelling
`Number.prototype.toString(16)` on non-negative integers. -/
def natToHexLower (n : ℕ) : List Char :=
  Nat.toDigits 16 n

/-- Hexadecimal rendering of an integer as `toString(16)` produces it
(a leading minus sign for negative values). -/
def intToHexLower (i : ℤ) : List Char :=
  if i < 0 then '-' :: natToHexLower (-i).toNat else natToHexLower i.toNat

/-- Models `String.prototype.padStart(n, c)`. -/
def padStartL (l : List Char) (n : ℕ) (c : Char) : List Char :=
  List.replicate (n - l.length) c ++ l

/-!
Embedding of the search worker (the flexsearch worker module, second
revision, the one with ranking): `isWordBoundary`, `calculateScore` and
`rankResults`.  The worker keeps a `Map` from codepoint to display name;
it is modelled as a function `ℕ → Option (List Char)`.
-/

/-- The name side-table `nameMap : Map<number, string>` of the worker. -/
def NameMap : Type := ℕ → Option (List Char)

/-- Direct translation of the worker function `isWordBoundary(str, index)`:
out-of-range indices count as boundaries, otherwise the character must be a
space or a hyphen.  The index is an integer because the caller passes
`foundIdx - 1`. -/
def isWordBoundary (s : List Char) (i : ℤ) : Bool :=
  if i < 0 ∨ (s.length : ℤ) ≤ i then true
  else
    let c := s.getD i.toNat ' '
    c = ' ' || c = '-'

/-- The tier assigned to one occurrence of the (uppercased) query inside the
(uppercased) name at index `foundIdx`, exactly the if-chain in
`calculateScore`. -/
def occTier (name q : List Char) (foundIdx : ℕ) : ℕ :=
  let before := isWordBoundary name ((foundIdx : ℤ) - 1)
  let after := isWordBoundary name ((foundIdx : ℤ) + q.length)
  if foundIdx = 0 ∧ after then 600
  else if before ∧ after then 400
  else if foundIdx = 0 then 200
  else if before then 150
  else 50

/-- The occurrence-scanning while loop of `calculateScore`, with explicit
fuel (the loop advances `idx` past each found occurrence, so
`name.length + 1` fuel always suffices): repeatedly `indexOf` the query from
`idx`, fold the occurrence tiers with `max`. -/
def scanLoopF (name q : List Char) : ℕ → ℕ → ℕ → ℕ
  | 0, _, acc => acc
  | fuel + 1, idx, acc =>
    if idx + q.length ≤ name.length then
      match jsIndexOf name q idx with
      | none => acc
      | some f => scanLoopF name q fuel (f + 1) (max acc (occTier name q f))
    else acc

/-- The length bonus of `calculateScore`: `Math.max(0, 100 - name.length)`. -/
def lengthBonus (name : List Char) : ℕ :=
  (max 0 (100 - (name.length : ℤ))).toNat

/-- Direct translation of the worker function `calculateScore(codepoint,
query)`: 0 for a codepoint without a stored name; otherwise 1000 when the
uppercased name equals the uppercased query, else the best occurrence tier
from the scan loop; plus the length bonus in every named case. -/
def calculateScore (nm : NameMap) (cp : ℕ) (query : List Char) : ℕ :=
  match nm cp with
  | none => 0
  | some name =>
    let uq := upperL query
    let un := upperL name
    let matchScore :=
      if un = uq then 1000
      else scanLoopF un uq (un.length + 1) 0 0
    matchScore + lengthBonus name

/-- The comparator of `rankResults` as a relation: `a` precedes `b` when its
score is higher, or on equal scores when its codepoint is not larger. -/
def rankRel (nm : NameMap) (q : List Char) (a b : ℕ) : Prop :=
  calculateScore nm b q < calculateScore nm a q ∨
    (calculateScore nm a q = calculateScore nm b q ∧ a ≤ b)

instance rankRelDecidable (nm : NameMap) (q : List Char) :
    DecidableRel (rankRel nm q) := fun a b => by
  unfold rankRel; infer_instance

/-- Direct model of the worker function `rankResults(codepoints, query)`:
sort the candidates by descending score, ties by ascending codepoint.  The
comparator is a linear order on candidate codepoints (antisymmetric on
distinct codepoints, total, transitive), so the sorted permutation is unique
and any correct sorting algorithm, in particular the JavaScript engine sort,
produces exactly this list. -/
def rankResults (nm : NameMap) (cps : List ℕ) (query : List Char) : List ℕ :=
  List.insertionSort (rankRel nm query) cps

/-!
Embedding of scripts/parse-ucd.ts.  Each parser receives the file content
already split into lines; the shared filter `linesFilter` drops blank and
comment lines exactly as the source does.
-/

/-- A record produced by `parseUnicodeData` (interface CharacterData).
Codepoints are `Option ℤ`: `none` models the JavaScript `NaN` a failed
`parseInt` yields; `category` and `bidiClass` are `Option` because accessing
a missing `;`-field yields `undefined`. -/
structure CharacterData where
  codepoint : Option ℤ
  name : Option (List Char)
  category : Option (List Char)
  bidiClass : Option (List Char)
  decompositionType : Option (List Char)
  decompositionMapping : List (Option ℤ)
deriving DecidableEq

/-- The pending First/Last range state of `parseUnicodeData`
(`rangeStart`). -/
structure RangeStart where
  codepoint : Option ℤ
  name : List Char
deriving DecidableEq

/-- The literal suffix the range opener is recognised by. -/
def firstSuffix : List Char := ", First>".toList

/-- The literal suffix the range closer is recognised by. -/
def lastSuffix : List Char := ", Last>".toList

/-- The inclusive integer range of the loop
`for (let cp = first; cp <= last; cp++)`; empty when either bound is `NaN`
(comparisons with `NaN` are false) or when the start exceeds the end. -/
def intRangeIncl : Option ℤ → Option ℤ → List ℤ
  | some f, some l => (List.range (l + 1 - f).toNat).map (fun k : ℕ => f + (k : ℤ))
  | _, _ => []

/-- Matches the decomposition-field regex (an anchored bracketed word tag
followed by optional whitespace and the rest of the field), returning the
tag and the remainder. -/
def decompTagMatch (s : List Char) : Option (List Char × List Char) :=
  match s with
  | '<' :: rest =>
    let tag := rest.takeWhile isWordChar
    if tag = [] then none
    else
      match rest.drop tag.length with
      | '>' :: r2 => some (tag, r2.dropWhile isJsSpace)
      | _ => none
  | _ => none

/-- Models `s.split(SPACE).filter(Boolean).map(cp => parseInt(cp, 16))`. -/
def parseCpList (s : List Char) : List (Option ℤ) :=
  ((splitOnChar ' ' s).filter (fun t => t ≠ [])).map jsParseIntHex

/-- The decomposition type and mapping a `parseUnicodeData` line yields
before the final emptiness adjustment (the body of `if (decomposition)`). -/
def decompParse (field : Option (List Char)) : Option (List Char) × List (Option ℤ) :=
  match field with
  | none => (none, [])
  | some d =>
    if d = [] then (none, [])
    else
      match decompTagMatch d with
      | some (tag, rest) => (some tag, parseCpList rest)
      | none => (some "canonical".toList, parseCpList d)

/-- The record pushed for an ordinary (non-range) `parseUnicodeData` line:
bracketed names become null, empty names become null, and the
decomposition type is forced back to null when the mapping list is empty. -/
def normalRecord (cp : Option ℤ) (name0 : List Char)
    (fields : List (List Char)) : CharacterData :=
  let dp := decompParse (fields.get? 5)
  let nm : Option (List Char) :=
    if leadsWith name0 ['<'] ∧ endsWithL name0 ['>'] then none
    else if name0 = [] then none
    else some name0
  { codepoint := cp
    name := nm
    category := fields.get? 2
    bidiClass := fields.get? 4
    decompositionType := if dp.2.length > 0 then dp.1 else none
    decompositionMapping := dp.2 }

/-- The generated name of a synthesized range record:
`baseName + HYPHEN + cp.toString(16).toUpperCase().padStart(4, ZERO)`. -/
def rangeName (base : List Char) (cp : ℤ) : List Char :=
  base ++ '-' :: padStartL (upperL (intToHexLower cp)) 4 '0'

/-- The records synthesized when a First/Last range closes: one per
codepoint of the inclusive range, with the generated name, the closing
line's category and bidi class, no decomposition type and an empty
decomposition mapping. -/
def rangeRecords (base : List Char) (f l : Option ℤ)
    (cat bid : Option (List Char)) : List CharacterData :=
  (intRangeIncl f l).map (fun c =>
    { codepoint := some c
      name := some (rangeName base c)
      category := cat
      bidiClass := bid
      decompositionType := none
      decompositionMapping := [] })

/-- One iteration of the `parseUnicodeData` line loop: from the pending
range state and a line, the new state and the records pushed.  The error
case models the TypeError thrown when a line has no second `;`-field
(`fields[1]` is `undefined` and `.endsWith` is called on it). -/
def pudStep (rs : Option RangeStart) (line : List Char) :
    Except (List Char) (Option RangeStart × List CharacterData) :=
  match (splitOnChar ';' line).get? 1 with
  | none => .error line
  | some name0 =>
    if endsWithL name0 firstSuffix then
      .ok (some ⟨jsParseIntHex ((splitOnChar ';' line).headD []),
        jsReplaceFirst (jsReplaceFirst name0 firstSuffix []) ['<'] []⟩, [])
    else
      match rs with
      | some r =>
        if endsWithL name0 lastSuffix then
          .ok (none, rangeRecords r.name r.codepoint
            (jsParseIntHex ((splitOnChar ';' line).headD []))
            ((splitOnChar ';' line).get? 2) ((splitOnChar ';' line).get? 4))
        else
          .ok (some r, [normalRecord (jsParseIntHex ((splitOnChar ';' line).headD []))
            name0 (splitOnChar ';' line)])
      | none =>
        .ok (none, [normalRecord (jsParseIntHex ((splitOnChar ';' line).headD []))
          name0 (splitOnChar ';' line)])

/-- The `parseUnicodeData` line loop folded over a list of lines, keeping
the pending range state and concatenating the pushed records. -/
def pudRun (rs : Option RangeStart) :
    List (List Char) → Except (List Char) (Option RangeStart × List CharacterData)
  | [] => .ok (rs, [])
  | l :: ls =>
    match pudStep rs l with
    | .error e => .error e
    | .ok (rs2, recs) =>
      match pudRun rs2 ls with
      | .error e => .error e
      | .ok (rs3, recs2) => .ok (rs3, recs ++ recs2)

/-- `parseUnicodeData` applied to a filtered line list. -/
def pudLines (ls : List (List Char)) : Except (List Char) (List CharacterData) :=
  (pudRun none ls).map (fun p => p.2)

/-- Model of `parseUnicodeData` on whole file content. -/
def parseUnicodeData (content : List Char) : Except (List Char) (List CharacterData) :=
  pudLines (linesFilter (splitOnChar '\n' content))

/-- A parsed Blocks.txt record. -/
structure Block where
  startCp : ℤ
  endCp : ℤ
  name : List Char
deriving DecidableEq

/-- A parsed Scripts.txt record. -/
structure ScriptRange where
  startCp : ℤ
  endCp : ℤ
  script : List Char
deriving DecidableEq

/-- A parsed EastAsianWidth.txt record. -/
structure EastAsianWidthRange where
  startCp : ℤ
  endCp : ℤ
  width : List Char
deriving DecidableEq

/-- Matcher for the anchored block-line regex (hex run, a literal `..`, a
hex run, optional whitespace, `;`, optional whitespace, then a non-empty
remainder captured greedily).  When the remainder is only whitespace the
greedy quantifiers backtrack and the capture is the final whitespace
character. -/
def blockLineMatch (line : List Char) : Option (List Char × List Char × List Char) :=
  let h1 := line.takeWhile isHexDigitCI
  if h1 = [] then none
  else
    match line.drop h1.length with
    | '.' :: '.' :: r1 =>
      let h2 := r1.takeWhile isHexDigitCI
      if h2 = [] then none
      else
        match (r1.drop h2.length).dropWhile isJsSpace with
        | ';' :: r3 =>
          let sp := r3.takeWhile isJsSpace
          let rest := r3.drop sp.length
          if rest ≠ [] then some (h1, h2, rest)
          else if sp ≠ [] then some (h1, h2, [sp.getLastD ' '])
          else none
        | _ => none
    | _ => none

/-- The error message prefix `parseBlocks` throws with. -/
def blockErrMsg : List Char := "Invalid block line: ".toList

/-- The `parseBlocks` line loop: on the first line that fails the pattern
an error naming the line is thrown; otherwise a record per line
(`match[3].trim()` is modelled by trimming whitespace from both ends). -/
def trimL (s : List Char) : List Char :=
  (s.dropWhile isJsSpace).reverse.dropWhile isJsSpace |>.reverse

/-- Recursive body of `parseBlocks` over filtered lines. -/
def parseBlocksLines : List (List Char) → Except (List Char) (List Block)
  | [] => .ok []
  | l :: ls =>
    match blockLineMatch l with
    | none => .error (blockErrMsg ++ l)
    | some (h1, h2, nm) =>
      match parseBlocksLines ls with
      | .error e => .error e
      | .ok bs => .ok (⟨(hexValNat h1 : ℤ), (hexValNat h2 : ℤ), trimL nm⟩ :: bs)

/-- Model of `parseBlocks` on whole file content. -/
def parseBlocks (content : List Char) : Except (List Char) (List Block) :=
  parseBlocksLines (linesFilter (splitOnChar '\n' content))

/-- Recognises a leading `..`, returning the remainder. -/
def dotsSplit : List Char → Option (List Char)
  | '.' :: '.' :: r1 => some r1
  | _ => none

/-- Final part of the shared interval-regex prefix: optional whitespace,
`;`, optional whitespace; on success returns the two captures together with
the remainder of the line after the second whitespace run. -/
def cpRangeSemi (h1 : List Char) (h2 : Option (List Char)) (rem : List Char) :
    Option (List Char × Option (List Char) × List Char) :=
  match rem.dropWhile isJsSpace with
  | ';' :: r3 => some (h1, h2, r3.dropWhile isJsSpace)
  | _ => none

/-- Middle part of the shared interval-regex prefix: the optional `..` plus
hex-run group participates only when both the dots and a non-empty hex run
follow (otherwise the regex engine backtracks to the groupless
alternative, which then fails at the `;` unless the dots were absent). -/
def cpRangeTail (h1 r0 : List Char) :
    Option (List Char × Option (List Char) × List Char) :=
  match dotsSplit r0 with
  | some r1 =>
    if r1.takeWhile isHexDigitCI = [] then cpRangeSemi h1 none r0
    else cpRangeSemi h1 (some (r1.takeWhile isHexDigitCI))
      (r1.dropWhile isHexDigitCI)
  | none => cpRangeSemi h1 none r0

/-- Matcher for the shared prefix of the scripts, width and emoji regexes:
a non-empty hex run, the optional `..` plus hex run, optional whitespace,
`;`, optional whitespace. -/
def cpRangeMatch (line : List Char) : Option (List Char × Option (List Char) × List Char) :=
  if line.takeWhile isHexDigitCI = [] then none
  else cpRangeTail (line.takeWhile isHexDigitCI) (line.dropWhile isHexDigitCI)

/-- Matcher for the scripts/width regexes: the shared prefix followed by a
non-empty word-character run (the captured value). -/
def scriptLineMatch (line : List Char) : Option (List Char × Option (List Char) × List Char) :=
  match cpRangeMatch line with
  | none => none
  | some (h1, h2, rest) =>
    let w := rest.takeWhile isWordChar
    if w = [] then none else some (h1, h2, w)

/-- The codepoint interval denoted by the two captures of an interval line:
the end falls back to the start when the optional second capture is
absent. -/
def captureRange (h1 : List Char) (h2 : Option (List Char)) : ℤ × ℤ :=
  ((hexValNat h1 : ℤ), match h2 with
    | some h => (hexValNat h : ℤ)
    | none => (hexValNat h1 : ℤ))

/-- The `parseScripts` line loop: lines that match the regex produce a
record, all other lines are skipped silently (there is no error case). -/
def parseScriptsLines : List (List Char) → List ScriptRange
  | [] => []
  | l :: ls =>
    match scriptLineMatch l with
    | none => parseScriptsLines ls
    | some (h1, h2, w) =>
      let r := captureRange h1 h2
      ⟨r.1, r.2, w⟩ :: parseScriptsLines ls

/-- Model of `parseScripts` on whole file content. -/
def parseScripts (content : List Char) : List ScriptRange :=
  parseScriptsLines (linesFilter (splitOnChar '\n' content))

/-- The `parseEastAsianWidth` line loop, structurally identical to
`parseScripts`. -/
def parseEawLines : List (List Char) → List EastAsianWidthRange
  | [] => []
  | l :: ls =>
    match scriptLineMatch l with
    | none => parseEawLines ls
    | some (h1, h2, w) =>
      let r := captureRange h1 h2
      ⟨r.1, r.2, w⟩ :: parseEawLines ls

/-- Model of `parseEastAsianWidth` on whole file content. -/
def parseEastAsianWidth (content : List Char) : List EastAsianWidthRange :=
  parseEawLines (linesFilter (splitOnChar '\n' content))

/-- Matcher for the emoji-data regex: the shared interval prefix followed by
the letters of `Emoji` compared case-insensitively (the regex carries the
`i` flag) and a word boundary (next character absent or not a word
character). -/
def emojiLineMatch (line : List Char) : Option (List Char × Option (List Char)) :=
  match cpRangeMatch line with
  | none => none
  | some (h1, h2, rest) =>
    if (rest.take 5).map Char.toLower = "emoji".toList then
      match rest.drop 5 with
      | [] => some (h1, h2)
      | c :: _ => if isWordChar c then none else some (h1, h2)
    else none

/-- The `parseEmojiData` loop: each matching line contributes every
codepoint of its inclusive range.  The JavaScript `Set` is modelled as the
list of added codepoints; `Set.has` is list membership. -/
def parseEmojiLines : List (List Char) → List ℤ
  | [] => []
  | l :: ls =>
    match emojiLineMatch l with
    | none => parseEmojiLines ls
    | some (h1, h2) =>
      let r := captureRange h1 h2
      intRangeIncl (some r.1) (some r.2) ++ parseEmojiLines ls

/-- Model of `parseEmojiData` on whole file content. -/
def parseEmojiData (content : List Char) : List ℤ :=
  parseEmojiLines (linesFilter (splitOnChar '\n' content))

/-- Direct translation of the helper `findBlock`: linear scan in list
order, first containing interval wins, null when none contains the
codepoint. -/
def findBlock (cp : ℤ) : List Block → Option (List Char)
  | [] => none
  | b :: bs => if b.startCp ≤ cp ∧ cp ≤ b.endCp then some b.name else findBlock cp bs

/-- Direct translation of the helper `findScript`. -/
def findScript (cp : ℤ) : List ScriptRange → Option (List Char)
  | [] => none
  | r :: rs => if r.startCp ≤ cp ∧ cp ≤ r.endCp then some r.script else findScript cp rs

/-- Direct translation of the helper `findEastAsianWidth`. -/
def findEastAsianWidth (cp : ℤ) : List EastAsianWidthRange → Option (List Char)
  | [] => none
  | r :: rs => if r.startCp ≤ cp ∧ cp ≤ r.endCp then some r.width else findEastAsianWidth cp rs

/-!
Embedding of the parts of scripts/build-db.ts the claims concern: the
decomposition edges emitted per character record, the artifact life cycle
around the batched inserts, and the variation-sequence merge and insert.
-/

/-- A row of the decomposition_mappings table. -/
structure DecompEdge where
  sourceCp : Option ℤ
  targetCp : Option ℤ
  position : ℕ
deriving DecidableEq

/-- The decomposition edges build-db.ts collects for one character record:
nothing when the mapping is empty, otherwise one edge per mapping entry with
its 0-based position. -/
def decompEdgesFor (r : CharacterData) : List DecompEdge :=
  if r.decompositionMapping.length > 0 then
    r.decompositionMapping.enum.map (fun p => ⟨r.codepoint, p.2, p.1⟩)
  else []

/-- The state of the published artifact path (public/unicode.db) during a
build-db.ts run, modelled over the batched inserts in execution order.
`main` first unlinks any existing file, creates a fresh database there, and
then runs the batch inserts; `fails i` says whether the i-th batch insert
throws.  A throw propagates out of `main` (only `main().catch` receives
it), so the rows of the batches before the failure are what remains on
disk.  The function returns the final content of the artifact path. -/
def insertedRows {α : Type} : List (List α) → (ℕ → Bool) → ℕ → List α
  | [], _, _ => []
  | b :: bs, fails, i =>
    if fails i then [] else b ++ insertedRows bs fails (i + 1)

/-- The artifact at the published path after a build-db.ts run over the
given previous artifact, batch list and failure pattern: the previous
artifact is removed unconditionally before the new database is created in
place, so the result is `some` of whatever rows were inserted before the
first failure (all rows when no batch fails). -/
def buildArtifact {α : Type} (prev : Option (List α)) (batches : List (List α))
    (fails : ℕ → Bool) : Option (List α) :=
  let _ := prev
  some (insertedRows batches fails 0)

/-- A variation-sequence record as parsed from either source file. -/
structure VariationSequence where
  baseCp : ℤ
  variationSelector : ℤ
  description : List Char
deriving DecidableEq

/-- The merge of the two variation-sequence lists in build-db.ts: a plain
spread concatenation, standardized variants first. -/
def allVariationSequences (std emo : List VariationSequence) : List VariationSequence :=
  std ++ emo

/-- Modelled from the spec: the uniqueness constraint of the
variation_sequences table is not part of the sources (the schema module in
the tree predates the table); section 3 of the design declares the row shape
`(baseCodepoint, variationSelector, description)` and that the merged lists
are stored without deduplication, so conflicts arise only when the full
triple repeats. -/
def variationKey (v : VariationSequence) : ℤ × ℤ × List Char :=
  (v.baseCp, v.variationSelector, v.description)

/-- Insert-or-ignore of one row into a table under a key function: the row
is dropped exactly when a row with the same key is already present. -/
def insertOrIgnore {α K : Type} [DecidableEq K] (key : α → K)
    (table : List α) (row : α) : List α :=
  if table.any (fun r => key r = key row) then table else table ++ [row]

/-- The variation_sequences table contents after the insert loop of
build-db.ts (batching does not affect which rows conflict, so the batches
are flattened). -/
def persistVariationSequences (rows : List VariationSequence) : List VariationSequence :=
  rows.foldl (insertOrIgnore variationKey) []

/-!
Claim-side definitions: the ranking contract of the specification, written
from its words so the code above can be compared against it.  A
case-insensitive occurrence of the query in a name is an index at which the
uppercased query is a slice of the uppercased name; boundaries are taken in
the name itself (uppercasing fixes spaces and hyphens, so the two readings
agree, which the development proves where needed).
-/

/-- A space or hyphen, the two interior boundary characters of the ranking
contract. -/
def isSpaceHyphen (c : Char) : Bool :=
  c = ' ' || c = '-'

/-- Case-insensitive occurrence of `q` in `name` at index `i`. -/
def ciOccursAt (name q : List Char) (i : ℕ) : Bool :=
  occursAtB (upperL name) (upperL q) i

/-- The indices of all case-insensitive occurrences of `q` in `name` that
are at least `idx` (every occurrence index is at most `name.length`). -/
def occIdxFrom (hay pat : List Char) (idx : ℕ) : List ℕ :=
  (List.range (hay.length + 1)).filter (fun i => decide (idx ≤ i) && occursAtB hay pat i)

/-- Maximum of a function over a list of indices, 0 on the empty list. -/
def maxOver (l : List ℕ) (t : ℕ → ℕ) : ℕ :=
  l.foldr (fun i m => max (t i) m) 0

/-- The occurrence starts at a boundary: at index 0, or right after a space
or hyphen of the name. -/
def claimStartB (name : List Char) (i : ℕ) : Bool :=
  decide (i = 0) || isSpaceHyphen (name.getD (i - 1) 'x')

/-- The occurrence ends at a boundary: at the end of the name, or right
before a space or hyphen of the name. -/
def claimEndB (name q : List Char) (i : ℕ) : Bool :=
  decide (i + q.length = name.length) || isSpaceHyphen (name.getD (i + q.length) 'x')

/-- The tier table of the ranking contract, read top to bottom exactly as
the specification lists it. -/
def claimTier (name q : List Char) (i : ℕ) : ℕ :=
  if i = 0 ∧ claimEndB name q i then 600
  else if claimStartB name i ∧ claimEndB name q i ∧ i ≠ 0 then 400
  else if i = 0 ∧ ¬claimEndB name q i then 200
  else if claimStartB name i ∧ ¬claimEndB name q i then 150
  else 50

/-- The total score the ranking contract assigns to a candidate: 0 without a
stored display name, otherwise the best tier over all case-insensitive
occurrences of the query plus the length bonus. -/
def claimScore (nm : NameMap) (q : List Char) (cp : ℕ) : ℕ :=
  match nm cp with
  | none => 0
  | some name =>
    maxOver (occIdxFrom (upperL name) (upperL q) 0) (claimTier name q) + lengthBonus name

/-- The output order the ranking contract demands: descending total score,
ties by ascending codepoint. -/
def claimOrd (nm : NameMap) (q : List Char) (a b : ℕ) : Prop :=
  claimScore nm q b < claimScore nm q a ∨
    (claimScore nm q a = claimScore nm q b ∧ a ≤ b)

/-- The text of a line after its first `;`, leading whitespace dropped:
the start of the `;`-delimited value field.  Used to state which field the
emoji-data regex actually tests. -/
def afterSemi (l : List Char) : List Char :=
  ((l.dropWhile (fun c => decide (c ≠ ';'))).drop 1).dropWhile isJsSpace

/-!
Concrete inputs used by the closed instances below.
-/

/-- Name table holding only `FISH` at codepoint 0. -/
def nmFISH : NameMap := fun cp =>
  if cp = 0 then some ("FISH".toList) else none

/-- Name table for the ranking order instance: `FISH CAKE` and `CATFISH`. -/
def nmFishDemo : NameMap := fun cp =>
  if cp = 1 then some ("CATFISH".toList)
  else if cp = 2 then some ("FISH CAKE".toList)
  else none

/-- A query of 101 lowercase letters. -/
def qLong : List Char := List.replicate 101 'a'

/-- Name table where codepoint 7 carries the 101-letter uppercase twin of
`qLong` and codepoint 3 carries that name extended by a space and a letter. -/
def nmLong : NameMap := fun cp =>
  if cp = 7 then some (List.replicate 101 'A')
  else if cp = 3 then some (List.replicate 101 'A' ++ [' ', 'X'])
  else none

/-- Name table holding a 100-letter name at codepoint 0. -/
def nmHundred : NameMap := fun cp =>
  if cp = 0 then some (List.replicate 100 'A') else none

/-- Name table holding a three-letter name at codepoint 0. -/
def nmWXY : NameMap := fun cp =>
  if cp = 0 then some ("WXY".toList) else none

/-- A two-line primary-table demo: an opener and a closer for base `K`. -/
def pudDemoLines : List (List Char) :=
  ["2;<K, First>;Lo;0;L".toList, "4;<K, Last>;Lo;0;L".toList]

/-- A one-line primary-table demo whose decomposition field has a
compatibility tag but an empty codepoint list. -/
def c8DemoLines : List (List Char) :=
  ["0045;X;Lu;0;L;<compat>;;;;N;;;;;".toList]

/-- The first record the one-line demo parses to. -/
def c8DemoRec : CharacterData :=
  ((pudLines c8DemoLines).toOption.getD []).headD ⟨none, none, none, none, none, []⟩

/-- Interval demo lists for the range-resolver instance. -/
def demoBlocks : List Block :=
  [⟨0, 3, "Z".toList⟩, ⟨5, 15, "B".toList⟩, ⟨6, 20, "C".toList⟩]

/-- Scripts demo list with two overlapping ranges. -/
def demoScripts : List ScriptRange :=
  [⟨0, 10, "Latn".toList⟩, ⟨5, 15, "Grek".toList⟩]

/-- Width demo list. -/
def demoWidths : List EastAsianWidthRange :=
  [⟨0, 4, "Na".toList⟩]

/-- Emoji-data demo content exercising a range line and a related but
distinct property. -/
def emojiDemoContent : List Char :=
  "1F600..1F603 ; Emoji # four faces\n2764 ; Extended_Pictographic".toList

/-- Emoji-data content showing the token filter is not an exact match. -/
def emojiCexContent : List Char :=
  "1F600;emoji\n1F601;Emoji qualifier".toList

/-- Variation-sequence demo rows: the same pair from the two sources with
different descriptions. -/
def vsStdDemo : List VariationSequence :=
  [⟨0x23, 0xFE0E, "text style".toList⟩]

/-- Emoji-sourced variation-sequence demo row. -/
def vsEmoDemo : List VariationSequence :=
  [⟨0x23, 0xFE0E, "emoji style".toList⟩]

/-!
Helper lemmas: characters and uppercasing.
-/

theorem isSpaceHyphen_toUpper (c : Char) :
    isSpaceHyphen (Char.toUpper c) = isSpaceHyphen c := by
  by_cases h : c.toNat ≥ 97 ∧ c.toNat ≤ 122
  · have h1 : Char.toUpper c = Char.ofNat (c.toNat - 32) := by
      simp [Char.toUpper, h]
    have hsp : (' ' : Char).toNat = 32 := by decide
    have hhy : ('-' : Char).toNat = 45 := by decide
    have hRHS : isSpaceHyphen c = false := by
      unfold isSpaceHyphen
      simp only [Bool.or_eq_false_iff, decide_eq_false_iff_not]
      constructor
      · intro he
        rw [he, hsp] at h
        omega
      · intro he
        rw [he, hhy] at h
        omega
    have hLHS : isSpaceHyphen (Char.ofNat (c.toNat - 32)) = false := by
      have hm1 : 65 ≤ c.toNat - 32 := by omega
      have hm2 : c.toNat - 32 ≤ 90 := by omega
      generalize c.toNat - 32 = m at hm1 hm2 ⊢
      interval_cases m <;> decide
    rw [h1, hLHS, hRHS]
  · have h1 : Char.toUpper c = c := by
      simp [Char.toUpper, h]
    rw [h1]

theorem upperL_length (s : List Char) : (upperL s).length = s.length := by
  simp [upperL]

theorem lengthBonus_eq (name : List Char) :
    lengthBonus name = 100 - name.length := by
  unfold lengthBonus
  rcases Nat.le_total name.length 100 with h | h
  · rw [max_eq_right (by omega : (0 : ℤ) ≤ 100 - (name.length : ℤ))]
    omega
  · rw [max_eq_left (by omega : (100 : ℤ) - (name.length : ℤ) ≤ 0)]
    omega

/-!
Helper lemmas: the indexOf scan.
-/

theorem occursAtB_le_length {hay pat : List Char} {i : ℕ}
    (h : occursAtB hay pat i = true) : i + pat.length ≤ hay.length := by
  unfold occursAtB at h
  simp only [Bool.and_eq_true, decide_eq_true_eq] at h
  exact h.1

theorem idxFindF_some (hay pat : List Char) :
    ∀ fuel i f, idxFindF hay pat fuel i = some f →
      i ≤ f ∧ occursAtB hay pat f = true ∧
        ∀ j, i ≤ j → j < f → occursAtB hay pat j = false := by
  intro fuel
  induction fuel with
  | zero => intro i f h; simp [idxFindF] at h
  | succ n ih =>
    intro i f h
    unfold idxFindF at h
    by_cases hc : i + pat.length ≤ hay.length
    · rw [if_pos hc] at h
      by_cases ho : occursAtB hay pat i = true
      · rw [if_pos ho] at h
        injection h with h
        subst h
        exact ⟨Nat.le_refl _, ho,
          fun j h1 h2 => (Nat.lt_irrefl _ (Nat.lt_of_le_of_lt h1 h2)).elim⟩
      · rw [if_neg ho] at h
        simp only [Bool.not_eq_true] at ho
        obtain ⟨h1, h2, h3⟩ := ih (i + 1) f h
        refine ⟨by omega, h2, fun j hj1 hj2 => ?_⟩
        by_cases hji : j = i
        · subst hji; exact ho
        · exact h3 j (by omega) hj2
    · rw [if_neg hc] at h
      exact absurd h (by simp)

theorem idxFindF_none (hay pat : List Char) :
    ∀ fuel i, hay.length + 1 ≤ fuel + i → idxFindF hay pat fuel i = none →
      ∀ j, i ≤ j → occursAtB hay pat j = false := by
  intro fuel
  induction fuel with
  | zero =>
    intro i hfu _ j hj
    unfold occursAtB
    have : ¬ (j + pat.length ≤ hay.length) := by omega
    simp [this]
  | succ n ih =>
    intro i hfu h j hj
    unfold idxFindF at h
    by_cases hc : i + pat.length ≤ hay.length
    · rw [if_pos hc] at h
      by_cases ho : occursAtB hay pat i = true
      · rw [if_pos ho] at h; exact absurd h (by simp)
      · rw [if_neg ho] at h
        simp only [Bool.not_eq_true] at ho
        by_cases hji : j = i
        · subst hji; exact ho
        · exact ih (i + 1) (by omega) h j (by omega)
    · unfold occursAtB
      have : ¬ (j + pat.length ≤ hay.length) := by omega
      simp [this]

theorem idxFindF_found (hay pat : List Char) :
    ∀ fuel i f, i ≤ f → occursAtB hay pat f = true →
      (∀ j, i ≤ j → j < f → occursAtB hay pat j = false) →
      f + 1 ≤ fuel + i → idxFindF hay pat fuel i = some f := by
  intro fuel
  induction fuel with
  | zero => intro i f h1 _ _ hfu; exact absurd h1 (by omega)
  | succ n ih =>
    intro i f h1 h2 h3 hfu
    unfold idxFindF
    have hc : i + pat.length ≤ hay.length := by
      have := occursAtB_le_length h2; omega
    rw [if_pos hc]
    by_cases ho : occursAtB hay pat i = true
    · have hfi : f = i := by
        by_contra hne
        have hlt : i < f := by omega
        have hz := h3 i (Nat.le_refl _) hlt
        rw [hz] at ho
        exact absurd ho (by simp)
      rw [if_pos ho, hfi]
    · rw [if_neg ho]
      simp only [Bool.not_eq_true] at ho
      have hif : i ≠ f := by
        intro he
        rw [he] at ho
        rw [ho] at h2
        exact absurd h2 (by simp)
      exact ih (i + 1) f (by omega) h2 (fun j hj1 hj2 => h3 j (by omega) hj2) (by omega)

theorem jsIndexOf_some {hay pat : List Char} {i f : ℕ}
    (h : jsIndexOf hay pat i = some f) :
    i ≤ f ∧ occursAtB hay pat f = true ∧
      ∀ j, i ≤ j → j < f → occursAtB hay pat j = false :=
  idxFindF_some hay pat _ i f h

theorem jsIndexOf_none {hay pat : List Char} {i : ℕ}
    (h : jsIndexOf hay pat i = none) :
    ∀ j, i ≤ j → occursAtB hay pat j = false :=
  idxFindF_none hay pat _ i (by omega) h

theorem jsIndexOf_found {hay pat : List Char} {i f : ℕ} (h1 : i ≤ f)
    (h2 : occursAtB hay pat f = true)
    (h3 : ∀ j, i ≤ j → j < f → occursAtB hay pat j = false) :
    jsIndexOf hay pat i = some f := by
  have hf : f ≤ hay.length := by
    have := occursAtB_le_length h2; omega
  exact idxFindF_found hay pat _ i f h1 h2 h3 (by omega)

/-!
Helper lemmas: maxima over occurrence lists.
-/

theorem le_maxOver {l : List ℕ} {t : ℕ → ℕ} {x : ℕ} (h : x ∈ l) :
    t x ≤ maxOver l t := by
  induction l with
  | nil => cases h
  | cons a l ih =>
    have hm : maxOver (a :: l) t = max (t a) (maxOver l t) := rfl
    rcases List.mem_cons.mp h with he | hme
    · subst he; rw [hm]; exact Nat.le_max_left _ _
    · rw [hm]; exact Nat.le_trans (ih hme) (Nat.le_max_right _ _)

theorem maxOver_cases (l : List ℕ) (t : ℕ → ℕ) :
    maxOver l t = 0 ∨ ∃ x ∈ l, maxOver l t = t x := by
  induction l with
  | nil => left; rfl
  | cons a l ih =>
    have hm : maxOver (a :: l) t = max (t a) (maxOver l t) := rfl
    rcases Nat.le_total (maxOver l t) (t a) with hle | hle
    · right
      exact ⟨a, List.mem_cons_self a l, by rw [hm]; exact Nat.max_eq_left hle⟩
    · rcases ih with h0 | ⟨x, hx, he⟩
      · rw [h0] at hle
        have ha : t a = 0 := by omega
        left; rw [hm, h0, ha]; rfl
      · right
        refine ⟨x, List.mem_cons_of_mem _ hx, ?_⟩
        rw [hm, he]
        rw [he] at hle
        exact Nat.max_eq_right hle

theorem maxOver_congr {l : List ℕ} {t1 t2 : ℕ → ℕ}
    (h : ∀ x ∈ l, t1 x = t2 x) : maxOver l t1 = maxOver l t2 := by
  induction l with
  | nil => rfl
  | cons a l ih =>
    have hm1 : maxOver (a :: l) t1 = max (t1 a) (maxOver l t1) := rfl
    have hm2 : maxOver (a :: l) t2 = max (t2 a) (maxOver l t2) := rfl
    rw [hm1, hm2, h a (List.mem_cons_self a l),
      ih (fun x hx => h x (List.mem_cons_of_mem _ hx))]

theorem mem_occIdxFrom {hay pat : List Char} {idx i : ℕ} :
    i ∈ occIdxFrom hay pat idx ↔ idx ≤ i ∧ occursAtB hay pat i = true := by
  unfold occIdxFrom
  rw [List.mem_filter, List.mem_range]
  constructor
  · rintro ⟨_, h2⟩
    simp only [Bool.and_eq_true, decide_eq_true_eq] at h2
    exact h2
  · rintro ⟨h1, h2⟩
    refine ⟨?_, by simp [h1, h2]⟩
    have := occursAtB_le_length h2
    omega

/-!
Helper lemmas: the occurrence-scanning loop computes the maximum tier over
all occurrences.
-/

theorem le_scanLoopF (name q : List Char) :
    ∀ fuel idx acc, acc ≤ scanLoopF name q fuel idx acc := by
  intro fuel
  induction fuel with
  | zero => intro idx acc; exact Nat.le_refl _
  | succ n ih =>
    intro idx acc
    unfold scanLoopF
    by_cases hc : idx + q.length ≤ name.length
    · rw [if_pos hc]
      cases hj : jsIndexOf name q idx with
      | none => exact Nat.le_refl _
      | some f =>
        exact Nat.le_trans (Nat.le_max_left acc (occTier name q f)) (ih _ _)
    · rw [if_neg hc]

theorem scanLoopF_le (name q : List Char) :
    ∀ fuel idx acc, scanLoopF name q fuel idx acc ≤
      max acc (maxOver (occIdxFrom name q idx) (occTier name q)) := by
  intro fuel
  induction fuel with
  | zero => intro idx acc; exact Nat.le_max_left _ _
  | succ n ih =>
    intro idx acc
    unfold scanLoopF
    by_cases hc : idx + q.length ≤ name.length
    · rw [if_pos hc]
      cases hj : jsIndexOf name q idx with
      | none => exact Nat.le_max_left _ _
      | some f =>
        obtain ⟨hf1, hf2, _⟩ := jsIndexOf_some hj
        have h1 : occTier name q f ≤ maxOver (occIdxFrom name q idx) (occTier name q) :=
          le_maxOver (mem_occIdxFrom.mpr ⟨hf1, hf2⟩)
        have h2 : maxOver (occIdxFrom name q (f + 1)) (occTier name q) ≤
            maxOver (occIdxFrom name q idx) (occTier name q) := by
          rcases maxOver_cases (occIdxFrom name q (f + 1)) (occTier name q) with h0 | ⟨x, hx, he⟩
          · rw [h0]; exact Nat.zero_le _
          · obtain ⟨hx1, hx2⟩ := mem_occIdxFrom.mp hx
            rw [he]
            exact le_maxOver (mem_occIdxFrom.mpr ⟨by omega, hx2⟩)
        refine Nat.le_trans (ih (f + 1) (max acc (occTier name q f))) ?_
        apply max_le
        · apply max_le
          · exact Nat.le_max_left _ _
          · exact Nat.le_trans h1 (Nat.le_max_right _ _)
        · exact Nat.le_trans h2 (Nat.le_max_right _ _)
    · rw [if_neg hc]
      exact Nat.le_max_left _ _

theorem occ_le_scanLoopF (name q : List Char) :
    ∀ fuel idx acc j, name.length + 1 ≤ fuel + idx → idx ≤ j →
      occursAtB name q j = true →
      occTier name q j ≤ scanLoopF name q fuel idx acc := by
  intro fuel
  induction fuel with
  | zero =>
    intro idx acc j hfu hij hocc
    have := occursAtB_le_length hocc
    exact absurd hij (by omega)
  | succ n ih =>
    intro idx acc j hfu hij hocc
    unfold scanLoopF
    have hc : idx + q.length ≤ name.length := by
      have := occursAtB_le_length hocc; omega
    rw [if_pos hc]
    cases hj : jsIndexOf name q idx with
    | none =>
      have := jsIndexOf_none hj j hij
      rw [this] at hocc
      exact absurd hocc (by simp)
    | some f =>
      obtain ⟨hf1, hf2, hf3⟩ := jsIndexOf_some hj
      have hfj : f ≤ j := by
        by_contra hlt
        have := hf3 j hij (by omega)
        rw [this] at hocc
        exact absurd hocc (by simp)
      rcases Nat.eq_or_lt_of_le hfj with he | hl
      · subst he
        exact Nat.le_trans (Nat.le_max_right acc (occTier name q f)) (le_scanLoopF name q n _ _)
      · have hjlen := occursAtB_le_length hocc
        exact ih (f + 1) (max acc (occTier name q f)) j (by omega) (by omega) hocc

theorem scanLoopF_eq (name q : List Char) (fuel idx acc : ℕ)
    (hfu : name.length + 1 ≤ fuel + idx) :
    scanLoopF name q fuel idx acc =
      max acc (maxOver (occIdxFrom name q idx) (occTier name q)) := by
  apply Nat.le_antisymm
  · exact scanLoopF_le name q fuel idx acc
  · apply max_le
    · exact le_scanLoopF name q fuel idx acc
    · rcases maxOver_cases (occIdxFrom name q idx) (occTier name q) with h0 | ⟨x, hx, he⟩
      · rw [h0]; exact Nat.zero_le _
      · obtain ⟨hx1, hx2⟩ := mem_occIdxFrom.mp hx
        rw [he]
        exact occ_le_scanLoopF name q fuel idx acc x hfu hx1 hx2

/-!
Helper lemmas: the word boundaries the code computes on the uppercased name
agree with the boundaries of the ranking contract on the original name.
-/

theorem claimStartB_zero (name : List Char) : claimStartB name 0 = true := by
  simp [claimStartB]

theorem getD_upperL (name : List Char) (k : ℕ) (hk : k < name.length) (d d2 : Char) :
    (upperL name).getD k d = Char.toUpper (name.getD k d2) := by
  rw [List.getD_eq_getElem _ _ (by simpa [upperL] using hk),
    List.getD_eq_getElem _ _ hk]
  simp [upperL]

theorem isWordBoundary_before_eq (name : List Char) (i : ℕ) (hlen : i ≤ name.length) :
    isWordBoundary (upperL name) ((i : ℤ) - 1) = claimStartB name i := by
  cases i with
  | zero => simp [isWordBoundary, claimStartB]
  | succ k =>
    have hk : k < name.length := by omega
    have h1 : ¬ (((k + 1 : ℕ) : ℤ) - 1 < 0 ∨ ((upperL name).length : ℤ) ≤ ((k + 1 : ℕ) : ℤ) - 1) := by
      rw [upperL_length]
      push_cast
      omega
    have ht : ((((k + 1 : ℕ) : ℤ)) - 1).toNat = k := by omega
    unfold isWordBoundary
    rw [if_neg h1, ht]
    show isSpaceHyphen ((upperL name).getD k ' ') = claimStartB name (k + 1)
    rw [getD_upperL name k hk ' ' 'x', isSpaceHyphen_toUpper]
    simp [claimStartB]

theorem isWordBoundary_after_eq (name q : List Char) (i : ℕ)
    (hocc : i + q.length ≤ name.length) :
    isWordBoundary (upperL name) ((i : ℤ) + ((upperL q).length : ℤ)) = claimEndB name q i := by
  by_cases he : i + q.length = name.length
  · have h1 : ((upperL name).length : ℤ) ≤ (i : ℤ) + ((upperL q).length : ℤ) := by
      rw [upperL_length, upperL_length]
      omega
    unfold isWordBoundary
    rw [if_pos (Or.inr h1)]
    simp [claimEndB, he]
  · have hk : i + q.length < name.length := by omega
    have h1 : ¬ ((i : ℤ) + ((upperL q).length : ℤ) < 0 ∨
        ((upperL name).length : ℤ) ≤ (i : ℤ) + ((upperL q).length : ℤ)) := by
      rw [upperL_length, upperL_length]
      omega
    have ht : ((i : ℤ) + ((upperL q).length : ℤ)).toNat = i + q.length := by
      rw [upperL_length]
      omega
    unfold isWordBoundary
    rw [if_neg h1, ht]
    show isSpaceHyphen ((upperL name).getD (i + q.length) ' ') = claimEndB name q i
    rw [getD_upperL name (i + q.length) hk ' ' 'x', isSpaceHyphen_toUpper]
    simp [claimEndB, he]

theorem occTier_eq_claimTier (name q : List Char) (i : ℕ)
    (hocc : occursAtB (upperL name) (upperL q) i = true) :
    occTier (upperL name) (upperL q) i = claimTier name q i := by
  have hlen : i + q.length ≤ name.length := by
    have := occursAtB_le_length hocc
    rw [upperL_length, upperL_length] at this
    exact this
  have hb := isWordBoundary_before_eq name i (by omega)
  have ha := isWordBoundary_after_eq name q i hlen
  simp only [occTier]
  rw [hb, ha]
  by_cases h0 : i = 0 <;> by_cases hE : claimEndB name q i = true <;>
    by_cases hS : claimStartB name i = true
  · subst h0; simp [claimTier, hE, hS]
  · subst h0; rw [claimStartB_zero] at hS; exact absurd rfl hS
  · subst h0; simp [claimTier, hE, hS]
  · subst h0; rw [claimStartB_zero] at hS; exact absurd rfl hS
  · simp [claimTier, h0, hE, hS]
  · simp [claimTier, h0, hE, hS]
  · simp [claimTier, h0, hE, hS]
  · simp [claimTier, h0, hE, hS]

/-- The code score equals the contract score for every candidate whose
stored name is not case-insensitively equal to the query (and for every
candidate without a stored name). -/
theorem calculateScore_eq_claimScore (nm : NameMap) (cp : ℕ) (q : List Char)
    (h : ∀ name, nm cp = some name → upperL name ≠ upperL q) :
    calculateScore nm cp q = claimScore nm q cp := by
  unfold calculateScore claimScore
  cases hn : nm cp with
  | none => rfl
  | some name =>
    have hne : upperL name ≠ upperL q := h name hn
    simp only
    rw [if_neg hne]
    congr 1
    rw [scanLoopF_eq (upperL name) (upperL q) ((upperL name).length + 1) 0 0 (by omega)]
    rw [Nat.zero_max]
    exact maxOver_congr fun x hx => occTier_eq_claimTier name q x (mem_occIdxFrom.mp hx).2

/-!
Helper lemmas for candidates the query does not occur in.
-/

theorem upper_ne_of_noOcc {name q : List Char}
    (h : ∀ i, i ≤ name.length → ciOccursAt name q i = false) :
    upperL name ≠ upperL q := by
  intro he
  have h0 := h 0 (Nat.zero_le _)
  unfold ciOccursAt at h0
  rw [he] at h0
  simp [occursAtB] at h0

theorem occIdxFrom_nil_of_noOcc {name q : List Char}
    (h : ∀ i, i ≤ name.length → ciOccursAt name q i = false) :
    occIdxFrom (upperL name) (upperL q) 0 = [] := by
  apply List.eq_nil_iff_forall_not_mem.mpr
  intro x hx
  obtain ⟨_, hocc⟩ := mem_occIdxFrom.mp hx
  have hxl : x ≤ name.length := by
    have := occursAtB_le_length hocc
    rw [upperL_length, upperL_length] at this
    omega
  have := h x hxl
  unfold ciOccursAt at this
  rw [this] at hocc
  exact absurd hocc (by simp)

theorem occTier_ge_50 (name q : List Char) (i : ℕ) : 50 ≤ occTier name q i := by
  simp only [occTier]
  split_ifs <;> omega

/-- The score of a candidate whose name does not contain the query at all
(case-insensitively) is exactly the length bonus. -/
theorem score_no_occurrence (nm : NameMap) (cp : ℕ) (q name : List Char)
    (hn : nm cp = some name)
    (hno : ∀ i, i ≤ name.length → ciOccursAt name q i = false) :
    calculateScore nm cp q = lengthBonus name := by
  unfold calculateScore
  simp only [hn]
  rw [if_neg (upper_ne_of_noOcc hno)]
  rw [scanLoopF_eq (upperL name) (upperL q) ((upperL name).length + 1) 0 0 (by omega)]
  rw [occIdxFrom_nil_of_noOcc hno]
  simp [maxOver]

/-!
Claim theorems about the ranking function.
-/

/-- Claim C7, counterexample.  The claim states that whenever the full
display name equals the query the score is exactly 1000.  Here the stored
display name of codepoint 0 is `FISH` and the query is that very string,
yet the score is 1096 (the code adds the length bonus
`max(0, 100 - 4) = 96` on top of the 1000 of the exact-match branch), so
the score is not 1000. -/
theorem C7_counterexample :
    nmFISH 0 = some ("FISH".toList) ∧
      calculateScore nmFISH 0 ("FISH".toList) = 1096 := by
  exact ⟨rfl, by decide⟩

/-- Claim C7, amended: the name/query comparison is case-insensitive, and
whenever the display name equals the query up to case the score is exactly
`1000 + max(0, 100 - len(name))`, the exact-match constant plus the length
bonus. -/
theorem C7_amended (nm : NameMap) (cp : ℕ) (q name : List Char)
    (h1 : nm cp = some name) (h2 : upperL name = upperL q) :
    calculateScore nm cp q = 1000 + lengthBonus name := by
  unfold calculateScore
  simp only [h1]
  rw [if_pos h2]

/-- Witness for the amended claim C7 at a concrete input: the stored name
`FISH` compared with the differently cased query `fish`. -/
theorem C7_witness :
    calculateScore nmFISH 0 ("fish".toList) = 1000 + lengthBonus ("FISH".toList) :=
  C7_amended nmFISH 0 ("fish".toList) ("FISH".toList) rfl (by decide)

/-- Claim C10, counterexample.  The claim states a score of 0 arises only
for candidates with no display name in the side-table.  Codepoint 0 has a
stored display name of 100 letters; the query `Q` does not occur in it, the
length bonus is `max(0, 100 - 100) = 0`, and the total score is 0. -/
theorem C10_counterexample :
    nmHundred 0 = some (List.replicate 100 'A') ∧
      calculateScore nmHundred 0 ['Q'] = 0 := by
  exact ⟨rfl, by decide⟩

/-- Claim C10, amended.  For a candidate whose display name does not
contain the query at all (case-insensitively) the score is exactly the
length bonus `max(0, 100 - len(name))`; and a score of 0 arises exactly for
candidates with no display name, or with a display name of length at least
100 in which the query does not occur (case-insensitively). -/
theorem C10_amended (nm : NameMap) (cp : ℕ) (q : List Char) :
    (∀ name, nm cp = some name →
      (∀ i, i ≤ name.length → ciOccursAt name q i = false) →
      calculateScore nm cp q = lengthBonus name)
    ∧ (calculateScore nm cp q = 0 ↔
        nm cp = none ∨ ∃ name, nm cp = some name ∧ 100 ≤ name.length ∧
          ∀ i, i ≤ name.length → ciOccursAt name q i = false) := by
  refine ⟨fun name hn hno => score_no_occurrence nm cp q name hn hno, ?_, ?_⟩
  · intro h0
    cases hn : nm cp with
    | none => exact Or.inl rfl
    | some name =>
      right
      refine ⟨name, rfl, ?_, ?_⟩
      · unfold calculateScore at h0
        simp only [hn] at h0
        by_cases he : upperL name = upperL q
        · rw [if_pos he] at h0; omega
        · rw [if_neg he] at h0
          have hb : lengthBonus name = 0 := by omega
          rw [lengthBonus_eq] at hb
          omega
      · intro i hi
        by_contra hocc
        simp only [Bool.not_eq_false] at hocc
        unfold calculateScore at h0
        simp only [hn] at h0
        by_cases he : upperL name = upperL q
        · rw [if_pos he] at h0; omega
        · rw [if_neg he] at h0
          rw [scanLoopF_eq (upperL name) (upperL q) ((upperL name).length + 1) 0 0 (by omega),
            Nat.zero_max] at h0
          have hmem : i ∈ occIdxFrom (upperL name) (upperL q) 0 :=
            mem_occIdxFrom.mpr ⟨Nat.zero_le _, hocc⟩
          have hle := le_maxOver (t := occTier (upperL name) (upperL q)) hmem
          have h50 := occTier_ge_50 (upperL name) (upperL q) i
          omega
  · intro h
    rcases h with hnone | ⟨name, hn, hlen, hno⟩
    · unfold calculateScore
      simp only [hnone]
    · rw [score_no_occurrence nm cp q name hn hno, lengthBonus_eq]
      omega

/-- Witness for the amended claim C10: codepoint 0 stores the three-letter
name `WXY`, the query `Q` does not occur in it, and the score is exactly
the length bonus; codepoint 5 stores no name and scores 0. -/
theorem C10_witness :
    calculateScore nmWXY 0 ['Q'] = lengthBonus ("WXY".toList) ∧
      calculateScore nmWXY 5 ['Q'] = 0 := by
  constructor
  · exact (C10_amended nmWXY 0 ['Q']).1 ("WXY".toList) rfl (by decide)
  · exact (C10_amended nmWXY 5 ['Q']).2.mpr (Or.inl rfl)

/-- Claim C1, counterexample.  The claim scores every candidate whose
display name is not (literally) equal to the query by the occurrence-tier
table.  Codepoints 3 and 7 both have display names different from the query
(the name of 7 differs only in letter case), both therefore receive the
claimed total score 600, and the claimed tie-break by ascending codepoint
demands the output `[3, 7]`; the code instead scores codepoint 7 through
its case-insensitive exact-match branch and returns `[7, 3]`. -/
theorem C1_counterexample :
    rankResults nmLong [3, 7] qLong = [7, 3]
    ∧ claimScore nmLong qLong 3 = 600 ∧ claimScore nmLong qLong 7 = 600
    ∧ nmLong 3 ≠ some qLong ∧ nmLong 7 ≠ some qLong
    ∧ nmLong 3 ≠ none ∧ nmLong 7 ≠ none := by
  refine ⟨by decide, by decide, by decide, by decide, by decide, by decide, by decide⟩

/-- Claim C1, amended: for every candidate list, query and name table in
which no candidate has a display name case-insensitively equal to the
query, the ranking returns a permutation of the candidates that is ordered
by descending contract score (the best occurrence tier plus the length
bonus, 0 for a candidate without a name) with ties broken by ascending
codepoint. -/
theorem C1_amended (nm : NameMap) (cs : List ℕ) (q : List Char)
    (h : ∀ cp ∈ cs, ∀ name, nm cp = some name → upperL name ≠ upperL q) :
    (rankResults nm cs q).Perm cs ∧
      (rankResults nm cs q).Pairwise (claimOrd nm q) := by
  have hperm := List.perm_insertionSort (rankRel nm q) cs
  constructor
  · exact hperm
  · haveI ht : IsTotal ℕ (rankRel nm q) := ⟨fun a b => by unfold rankRel; omega⟩
    haveI htr : IsTrans ℕ (rankRel nm q) :=
      ⟨fun a b c hab hbc => by unfold rankRel at hab hbc ⊢; omega⟩
    have hs : (rankResults nm cs q).Pairwise (rankRel nm q) :=
      List.sorted_insertionSort (rankRel nm q) cs
    refine hs.imp_of_mem ?_
    intro a b ha hb hr
    have ha2 : a ∈ cs := hperm.mem_iff.mp ha
    have hb2 : b ∈ cs := hperm.mem_iff.mp hb
    have ea := calculateScore_eq_claimScore nm a q (h a ha2)
    have eb := calculateScore_eq_claimScore nm b q (h b hb2)
    unfold rankRel at hr
    unfold claimOrd
    rw [ea, eb] at hr
    exact hr

/-- Witness for the amended claim C1: with names `CATFISH` (score 143) and
`FISH CAKE` (score 691) and query `fish`, the ranking is a permutation of
the candidates ordered by the contract. -/
theorem C1_witness :
    (rankResults nmFishDemo [1, 2] ("fish".toList)).Perm [1, 2] ∧
      (rankResults nmFishDemo [1, 2] ("fish".toList)).Pairwise
        (claimOrd nmFishDemo ("fish".toList)) := by
  apply C1_amended nmFishDemo [1, 2] ("fish".toList)
  intro cp hcp name hn
  fin_cases hcp
  · rw [show nmFishDemo 1 = some ("CATFISH".toList) from rfl] at hn
    injection hn with hn
    subst hn
    decide
  · rw [show nmFishDemo 2 = some ("FISH CAKE".toList) from rfl] at hn
    injection hn with hn
    subst hn
    decide

/-!
Helper lemmas for the interval resolvers.
-/

theorem findBlock_eq_find (cp : ℤ) :
    ∀ bs : List Block, findBlock cp bs =
      (bs.find? (fun b => decide (b.startCp ≤ cp) && decide (cp ≤ b.endCp))).map Block.name := by
  intro bs
  induction bs with
  | nil => rfl
  | cons b bs ih =>
    by_cases h : b.startCp ≤ cp ∧ cp ≤ b.endCp
    · unfold findBlock
      rw [if_pos h, List.find?_cons_of_pos _ (by simp [h.1, h.2])]
      rfl
    · unfold findBlock
      rw [if_neg h, List.find?_cons_of_neg _ (by simpa using h)]
      exact ih

theorem findScript_eq_find (cp : ℤ) :
    ∀ rs : List ScriptRange, findScript cp rs =
      (rs.find? (fun r => decide (r.startCp ≤ cp) && decide (cp ≤ r.endCp))).map ScriptRange.script := by
  intro rs
  induction rs with
  | nil => rfl
  | cons r rs ih =>
    by_cases h : r.startCp ≤ cp ∧ cp ≤ r.endCp
    · unfold findScript
      rw [if_pos h, List.find?_cons_of_pos _ (by simp [h.1, h.2])]
      rfl
    · unfold findScript
      rw [if_neg h, List.find?_cons_of_neg _ (by simpa using h)]
      exact ih

theorem findEaw_eq_find (cp : ℤ) :
    ∀ rs : List EastAsianWidthRange, findEastAsianWidth cp rs =
      (rs.find? (fun r => decide (r.startCp ≤ cp) && decide (cp ≤ r.endCp))).map EastAsianWidthRange.width := by
  intro rs
  induction rs with
  | nil => rfl
  | cons r rs ih =>
    by_cases h : r.startCp ≤ cp ∧ cp ≤ r.endCp
    · unfold findEastAsianWidth
      rw [if_pos h, List.find?_cons_of_pos _ (by simp [h.1, h.2])]
      rfl
    · unfold findEastAsianWidth
      rw [if_neg h, List.find?_cons_of_neg _ (by simpa using h)]
      exact ih

theorem findBlock_first (cp : ℤ) :
    ∀ (pre : List Block) (b : Block) (post : List Block),
      (∀ b2 ∈ pre, ¬(b2.startCp ≤ cp ∧ cp ≤ b2.endCp)) →
      b.startCp ≤ cp → cp ≤ b.endCp →
      findBlock cp (pre ++ b :: post) = some b.name := by
  intro pre
  induction pre with
  | nil =>
    intro b post _ h1 h2
    simp only [List.nil_append]
    unfold findBlock
    rw [if_pos ⟨h1, h2⟩]
  | cons a pre ih =>
    intro b post hpre h1 h2
    simp only [List.cons_append]
    unfold findBlock
    rw [if_neg (hpre a (List.mem_cons_self a pre))]
    exact ih b post (fun x hx => hpre x (List.mem_cons_of_mem _ hx)) h1 h2

theorem findScript_first (cp : ℤ) :
    ∀ (pre : List ScriptRange) (r : ScriptRange) (post : List ScriptRange),
      (∀ r2 ∈ pre, ¬(r2.startCp ≤ cp ∧ cp ≤ r2.endCp)) →
      r.startCp ≤ cp → cp ≤ r.endCp →
      findScript cp (pre ++ r :: post) = some r.script := by
  intro pre
  induction pre with
  | nil =>
    intro r post _ h1 h2
    simp only [List.nil_append]
    unfold findScript
    rw [if_pos ⟨h1, h2⟩]
  | cons a pre ih =>
    intro r post hpre h1 h2
    simp only [List.cons_append]
    unfold findScript
    rw [if_neg (hpre a (List.mem_cons_self a pre))]
    exact ih r post (fun x hx => hpre x (List.mem_cons_of_mem _ hx)) h1 h2

/-- Claim C3.  Each of the three interval resolvers scans its list in parse
order and returns the value of the first interval containing the codepoint
(`List.find?` order), returns null exactly when no interval contains it,
and when several intervals contain the codepoint the earliest one wins. -/
theorem C3_theorem (cp : ℤ) (blocks : List Block) (scripts : List ScriptRange)
    (widths : List EastAsianWidthRange) :
    (findBlock cp blocks =
      (blocks.find? (fun b => decide (b.startCp ≤ cp) && decide (cp ≤ b.endCp))).map Block.name)
    ∧ (findScript cp scripts =
      (scripts.find? (fun r => decide (r.startCp ≤ cp) && decide (cp ≤ r.endCp))).map ScriptRange.script)
    ∧ (findEastAsianWidth cp widths =
      (widths.find? (fun r => decide (r.startCp ≤ cp) && decide (cp ≤ r.endCp))).map EastAsianWidthRange.width)
    ∧ (findBlock cp blocks = none ↔ ∀ b ∈ blocks, ¬(b.startCp ≤ cp ∧ cp ≤ b.endCp))
    ∧ (∀ (pre : List Block) (b : Block) post,
        (∀ b2 ∈ pre, ¬(b2.startCp ≤ cp ∧ cp ≤ b2.endCp)) →
        b.startCp ≤ cp → cp ≤ b.endCp → findBlock cp (pre ++ b :: post) = some b.name)
    ∧ (∀ (pre : List ScriptRange) (r : ScriptRange) post,
        (∀ r2 ∈ pre, ¬(r2.startCp ≤ cp ∧ cp ≤ r2.endCp)) →
        r.startCp ≤ cp → cp ≤ r.endCp → findScript cp (pre ++ r :: post) = some r.script) := by
  refine ⟨findBlock_eq_find cp blocks, findScript_eq_find cp scripts, findEaw_eq_find cp widths,
    ?_, findBlock_first cp, findScript_first cp⟩
  rw [findBlock_eq_find cp blocks, Option.map_eq_none', List.find?_eq_none]
  constructor
  · intro h b hb
    have := h b hb
    simpa using this
  · intro h b hb
    have := h b hb
    simpa using this

/-- Witness for claim C3: with overlapping demo intervals the first match
wins, and a codepoint outside all intervals resolves to null. -/
theorem C3_witness :
    findBlock 7 demoBlocks = some ("B".toList)
    ∧ findScript 7 demoScripts = some ("Latn".toList)
    ∧ findEastAsianWidth 99 demoWidths = none := by
  refine ⟨?_, ?_, ?_⟩
  · exact (C3_theorem 7 demoBlocks demoScripts demoWidths).2.2.2.2.1
      [⟨0, 3, "Z".toList⟩] ⟨5, 15, "B".toList⟩ [⟨6, 20, "C".toList⟩]
      (by decide) (by decide) (by decide)
  · exact (C3_theorem 7 demoBlocks demoScripts demoWidths).2.2.2.2.2
      [] ⟨0, 10, "Latn".toList⟩ [⟨5, 15, "Grek".toList⟩]
      (by simp) (by decide) (by decide)
  · exact (C3_theorem 99 demoBlocks demoScripts demoWidths).2.2.2.1.mpr (by decide)

/-!
Helper lemmas for the artifact life cycle.
-/

theorem insertedRows_all_ok {α : Type} :
    ∀ (bs : List (List α)) (fails : ℕ → Bool) (i : ℕ),
      (∀ k, k < bs.length → fails (i + k) = false) →
      insertedRows bs fails i = bs.flatten := by
  intro bs
  induction bs with
  | nil => intro fails i _; rfl
  | cons b bs ih =>
    intro fails i h
    have h0 : fails i = false := by
      have := h 0 (by simp)
      simpa using this
    unfold insertedRows
    rw [h0]
    simp only [Bool.false_eq_true, if_false]
    rw [ih fails (i + 1) (fun k hk => by
      have := h (k + 1) (by simp; omega)
      simpa [Nat.add_assoc, Nat.add_comm 1 k] using this), List.flatten_cons]

theorem insertedRows_fail {α : Type} :
    ∀ (bs : List (List α)) (fails : ℕ → Bool) (i j : ℕ),
      j < bs.length → fails (i + j) = true → (∀ k, k < j → fails (i + k) = false) →
      insertedRows bs fails i = (bs.take j).flatten := by
  intro bs
  induction bs with
  | nil => intro fails i j hj _ _; exact absurd hj (by simp)
  | cons b bs ih =>
    intro fails i j hj hf hmin
    cases j with
    | zero =>
      have h0 : fails i = true := by simpa using hf
      unfold insertedRows
      rw [h0]
      rfl
    | succ jj =>
      have h0 : fails i = false := by
        have := hmin 0 (by omega)
        simpa using this
      unfold insertedRows
      rw [h0]
      simp only [Bool.false_eq_true, if_false]
      rw [ih fails (i + 1) jj (by simpa using hj)
        (by have := hf; simpa [Nat.add_assoc, Nat.add_comm 1 jj] using this)
        (fun k hk => by
          have := hmin (k + 1) (by omega)
          simpa [Nat.add_assoc, Nat.add_comm 1 k] using this),
        List.take_succ_cons, List.flatten_cons]

/-- Claim C5, counterexample.  With a previous artifact containing one row
and a single failing batch, the published path ends up holding the fresh
empty database, not the previous artifact: the previous artifact is deleted
before the build, so a failure does not leave it available. -/
theorem C5_counterexample :
    buildArtifact (some [0]) [[1]] (fun _ => true) = some ([] : List ℕ)
    ∧ buildArtifact (some [0]) [[1]] (fun _ => true) ≠ some [0] := by
  exact ⟨rfl, by decide⟩

/-- Claim C5, amended.  build-db.ts unconditionally unlinks the previous
artifact and creates the new database in place at the published path, so
the final file state never depends on the previous artifact; when every
batch insert succeeds the artifact holds all rows, and when the first
failing batch is the i-th the run aborts leaving a partial artifact with
exactly the rows of the preceding batches. -/
theorem C5_amended {α : Type} (prev : Option (List α)) (batches : List (List α))
    (fails : ℕ → Bool) :
    buildArtifact prev batches fails = buildArtifact none batches fails
    ∧ ((∀ i, i < batches.length → fails i = false) →
        buildArtifact prev batches fails = some batches.flatten)
    ∧ (∀ i, i < batches.length → fails i = true → (∀ j, j < i → fails j = false) →
        buildArtifact prev batches fails = some ((batches.take i).flatten)) := by
  refine ⟨rfl, ?_, ?_⟩
  · intro h
    unfold buildArtifact
    rw [insertedRows_all_ok batches fails 0 (fun k hk => by simpa using h k hk)]
  · intro i hi hf hmin
    unfold buildArtifact
    rw [insertedRows_fail batches fails 0 i hi (by simpa using hf)
      (fun k hk => by simpa using hmin k hk)]

/-- Witness for the amended claim C5: three batches, the second one fails,
and the artifact ends up holding exactly the rows of the first batch. -/
theorem C5_witness :
    buildArtifact (some [9]) [[1], [2], [3]] (fun i => decide (i = 1)) = some [1] := by
  have h := (C5_amended (some [9]) [[1], [2], [3]] (fun i => decide (i = 1))).2.2
    1 (by decide) (by decide) (by decide)
  exact h.trans (by decide)

/-!
Helper lemmas for the variation-sequence table.
-/

theorem variationKey_inj (x a : VariationSequence) :
    variationKey x = variationKey a ↔ x = a := by
  constructor
  · intro he
    cases x
    cases a
    simpa [variationKey, Prod.ext_iff] using he
  · intro he
    rw [he]

theorem mem_persistVS (rows : List VariationSequence) (r : VariationSequence) :
    r ∈ persistVariationSequences rows ↔ r ∈ rows := by
  suffices h : ∀ acc, r ∈ rows.foldl (insertOrIgnore variationKey) acc ↔ r ∈ acc ∨ r ∈ rows by
    have := h []
    simpa [persistVariationSequences] using this
  induction rows with
  | nil => intro acc; simp
  | cons a rows ih =>
    intro acc
    rw [List.foldl_cons, ih]
    unfold insertOrIgnore
    by_cases hany : acc.any (fun x => decide (variationKey x = variationKey a)) = true
    · rw [if_pos hany]
      have hmem : a ∈ acc := by
        obtain ⟨x, hx1, hx2⟩ := List.any_eq_true.mp hany
        simp only [decide_eq_true_eq] at hx2
        rwa [(variationKey_inj x a).mp hx2] at hx1
      constructor
      · rintro (h | h)
        · exact Or.inl h
        · exact Or.inr (List.mem_cons_of_mem _ h)
      · rintro (h | h)
        · exact Or.inl h
        · rcases List.mem_cons.mp h with he | hm
          · exact Or.inl (he ▸ hmem)
          · exact Or.inr hm
    · rw [if_neg hany]
      constructor
      · rintro (h | h)
        · rcases List.mem_append.mp h with h2 | h2
          · exact Or.inl h2
          · have he : r = a := by simpa using h2
            exact Or.inr (he ▸ List.mem_cons_self a rows)
        · exact Or.inr (List.mem_cons_of_mem _ h)
      · rintro (h | h)
        · exact Or.inl (List.mem_append.mpr (Or.inl h))
        · rcases List.mem_cons.mp h with he | hm
          · exact Or.inl (List.mem_append.mpr (Or.inr (by simp [he])))
          · exact Or.inr hm

/-- Claim C9.  The merge of the two variation-sequence sources is a plain
concatenation, and two rows declaring the same (base, selector) pair with
different descriptions — one from each source — both survive the
insert-or-ignore persistence as two distinct rows, because the modelled
uniqueness constraint is on the full triple. -/
theorem C9_theorem (std emo : List VariationSequence) (v1 v2 : VariationSequence)
    (h1 : v1 ∈ std) (h2 : v2 ∈ emo)
    (_hb : v1.baseCp = v2.baseCp) (_hs : v1.variationSelector = v2.variationSelector)
    (hd : v1.description ≠ v2.description) :
    allVariationSequences std emo = std ++ emo
    ∧ v1 ∈ persistVariationSequences (allVariationSequences std emo)
    ∧ v2 ∈ persistVariationSequences (allVariationSequences std emo)
    ∧ v1 ≠ v2 := by
  refine ⟨rfl, ?_, ?_, ?_⟩
  · exact (mem_persistVS _ _).mpr (List.mem_append.mpr (Or.inl h1))
  · exact (mem_persistVS _ _).mpr (List.mem_append.mpr (Or.inr h2))
  · intro he
    exact hd (congrArg VariationSequence.description he)

/-- Witness for claim C9: the pair (0x23, 0xFE0E) declared by both source
lists with different descriptions yields two rows in the persisted table. -/
theorem C9_witness :
    (⟨0x23, 0xFE0E, "text style".toList⟩ : VariationSequence) ∈
        persistVariationSequences (allVariationSequences vsStdDemo vsEmoDemo)
    ∧ (⟨0x23, 0xFE0E, "emoji style".toList⟩ : VariationSequence) ∈
        persistVariationSequences (allVariationSequences vsStdDemo vsEmoDemo) := by
  have h := C9_theorem vsStdDemo vsEmoDemo
    ⟨0x23, 0xFE0E, "text style".toList⟩ ⟨0x23, 0xFE0E, "emoji style".toList⟩
    (by decide) (by decide) rfl rfl (by decide)
  exact ⟨h.2.1, h.2.2.1⟩

/-!
Helper lemmas for the decomposition invariant.
-/

theorem decompParse_isSome {f : Option (List Char)} (h : (decompParse f).2 ≠ []) :
    (decompParse f).1.isSome := by
  cases f with
  | none => simp [decompParse] at h
  | some d =>
    simp only [decompParse] at h ⊢
    by_cases hd : d = []
    · rw [if_pos hd] at h
      simp at h
    · rw [if_neg hd] at h ⊢
      cases hm : decompTagMatch d with
      | none => simp
      | some p =>
        obtain ⟨tag, rest⟩ := p
        simp

theorem normalRecord_inv (cp : Option ℤ) (name0 : List Char) (fields : List (List Char)) :
    ((normalRecord cp name0 fields).decompositionType ≠ none ↔
      (normalRecord cp name0 fields).decompositionMapping ≠ []) := by
  unfold normalRecord
  dsimp only
  by_cases h : (decompParse (fields.get? 5)).2 = []
  · rw [h]
    simp
  · have hl : 0 < (decompParse (fields.get? 5)).2.length := List.length_pos.mpr h
    rw [if_pos hl]
    exact iff_of_true (Option.isSome_iff_ne_none.mp (decompParse_isSome h)) h

theorem pudStep_inv (rs : Option RangeStart) (l : List Char)
    (out : Option RangeStart × List CharacterData) (h : pudStep rs l = .ok out) :
    ∀ r ∈ out.2, ((r.decompositionType ≠ none) ↔ r.decompositionMapping ≠ []) := by
  unfold pudStep at h
  split at h
  · exact absurd h (by simp)
  · split at h
    · injection h with h
      subst h
      intro r hr
      cases hr
    · split at h
      · split at h
        · injection h with h
          subst h
          intro r hr
          simp only [rangeRecords, List.mem_map] at hr
          obtain ⟨c, _, hc⟩ := hr
          rw [← hc]
          simp
        · injection h with h
          subst h
          intro r hr
          have := List.mem_singleton.mp hr
          subst this
          exact normalRecord_inv _ _ _
      · injection h with h
        subst h
        intro r hr
        have := List.mem_singleton.mp hr
        subst this
        exact normalRecord_inv _ _ _

theorem pudRun_inv :
    ∀ (ls : List (List Char)) (rs : Option RangeStart)
      (out : Option RangeStart × List CharacterData),
      pudRun rs ls = .ok out →
      ∀ r ∈ out.2, ((r.decompositionType ≠ none) ↔ r.decompositionMapping ≠ []) := by
  intro ls
  induction ls with
  | nil =>
    intro rs out h r hr
    unfold pudRun at h
    injection h with h
    subst h
    cases hr
  | cons l ls ih =>
    intro rs out h r hr
    unfold pudRun at h
    cases hstep : pudStep rs l with
    | error e => rw [hstep] at h; exact absurd h (by simp)
    | ok p =>
      obtain ⟨rs2, recs1⟩ := p
      rw [hstep] at h
      dsimp only at h
      cases hrun : pudRun rs2 ls with
      | error e => rw [hrun] at h; exact absurd h (by simp)
      | ok p2 =>
        obtain ⟨rs3, recs2⟩ := p2
        rw [hrun] at h
        dsimp only at h
        injection h with h
        subst h
        rcases List.mem_append.mp hr with h1 | h1
        · exact pudStep_inv rs l (rs2, recs1) hstep r h1
        · exact ih rs2 (rs3, recs2) hrun r h1

/-- Claim C8.  For every record the primary parser produces, the
decomposition type is non-null exactly when build-db.ts emits at least one
decomposition edge for that record (one per mapping entry); in particular an
empty mapping list forces the type to null even when a tag token was
present on the line. -/
theorem C8_theorem (ls : List (List Char)) (recs : List CharacterData) (r : CharacterData)
    (h : pudLines ls = .ok recs) (hr : r ∈ recs) :
    (r.decompositionType ≠ none) ↔ decompEdgesFor r ≠ [] := by
  unfold pudLines at h
  cases hrun : pudRun none ls with
  | error e => rw [hrun] at h; exact absurd h (by simp [Except.map])
  | ok p =>
    rw [hrun] at h
    simp only [Except.map] at h
    injection h with h
    subst h
    have hinv := pudRun_inv ls none p hrun r hr
    unfold decompEdgesFor
    by_cases hm : r.decompositionMapping = []
    · rw [hinv, hm]
      simp
    · have hl : 0 < r.decompositionMapping.length := List.length_pos.mpr hm
      rw [if_pos hl, hinv]
      constructor
      · intro _
        simp [hm]
      · intro _
        exact hm

/-- Witness for claim C8 at a concrete record: the line with decomposition
field `<compat>` (tag token but empty codepoint list) parses to a record
with null decomposition type and no edges. -/
theorem C8_witness :
    (c8DemoRec.decompositionType ≠ none) ↔ decompEdgesFor c8DemoRec ≠ [] :=
  C8_theorem c8DemoLines ((pudLines c8DemoLines).toOption.getD []) c8DemoRec rfl (by decide)

/-!
Helper lemmas for the line-format parsers.
-/

theorem linesFilter_skip (pre post : List (List Char)) (l : List Char)
    (h : l.all isJsSpace = true ∨ leadsWith l ['#'] = true) :
    linesFilter (pre ++ l :: post) = linesFilter (pre ++ post) := by
  unfold linesFilter
  rw [List.filter_append, List.filter_append, List.filter_cons_of_neg]
  rcases h with h | h <;> simp [h]

theorem parseBlocksLines_error :
    ∀ (ls : List (List Char)) (l : List Char), l ∈ ls → blockLineMatch l = none →
      ∃ l2, l2 ∈ ls ∧ blockLineMatch l2 = none ∧
        parseBlocksLines ls = .error (blockErrMsg ++ l2) := by
  intro ls
  induction ls with
  | nil => intro l h; cases h
  | cons a ls ih =>
    intro l hl hnone
    cases hm : blockLineMatch a with
    | none =>
      refine ⟨a, List.mem_cons_self a ls, hm, ?_⟩
      unfold parseBlocksLines
      rw [hm]
    | some p =>
      obtain ⟨h1, h2, nm⟩ := p
      have hmem : l ∈ ls := by
        rcases List.mem_cons.mp hl with he | hm2
        · subst he; rw [hm] at hnone; exact absurd hnone (by simp)
        · exact hm2
      obtain ⟨l2, hl2, hn2, he2⟩ := ih l hmem hnone
      refine ⟨l2, List.mem_cons_of_mem _ hl2, hn2, ?_⟩
      unfold parseBlocksLines
      rw [hm, he2]

theorem parseScriptsLines_eq_filterMap :
    ∀ ls : List (List Char), parseScriptsLines ls = ls.filterMap (fun l =>
      (scriptLineMatch l).map (fun m =>
        (⟨(captureRange m.1 m.2.1).1, (captureRange m.1 m.2.1).2, m.2.2⟩ : ScriptRange))) := by
  intro ls
  induction ls with
  | nil => rfl
  | cons a ls ih =>
    cases hm : scriptLineMatch a with
    | none =>
      unfold parseScriptsLines
      rw [hm, List.filterMap_cons]
      simp only [hm, Option.map_none']
      exact ih
    | some m =>
      obtain ⟨mh1, mh2, mw⟩ := m
      unfold parseScriptsLines
      rw [hm, List.filterMap_cons]
      simp only [hm, Option.map_some']
      rw [ih]

/-- Claim C4, amended.  Both cited parsers skip blank and comment lines
silently; `parseBlocks` fails on the first structurally malformed surviving
line with an error naming that line verbatim; but `parseScripts` cannot
fail: it keeps exactly the lines matching its regex and silently drops
every other surviving line. -/
theorem C4_amended :
    (∀ (pre post : List (List Char)) (l : List Char),
      l.all isJsSpace = true ∨ leadsWith l ['#'] = true →
      parseBlocksLines (linesFilter (pre ++ l :: post)) =
          parseBlocksLines (linesFilter (pre ++ post))
      ∧ parseScriptsLines (linesFilter (pre ++ l :: post)) =
          parseScriptsLines (linesFilter (pre ++ post)))
    ∧ (∀ (ls : List (List Char)) (l : List Char), l ∈ ls → blockLineMatch l = none →
      ∃ l2, l2 ∈ ls ∧ blockLineMatch l2 = none ∧
        parseBlocksLines ls = .error (blockErrMsg ++ l2))
    ∧ (∀ ls : List (List Char), parseScriptsLines ls = ls.filterMap (fun l =>
        (scriptLineMatch l).map (fun m =>
          (⟨(captureRange m.1 m.2.1).1, (captureRange m.1 m.2.1).2, m.2.2⟩ : ScriptRange)))) := by
  refine ⟨?_, parseBlocksLines_error, parseScriptsLines_eq_filterMap⟩
  intro pre post l h
  rw [linesFilter_skip pre post l h]
  exact ⟨rfl, rfl⟩

/-- Claim C4, counterexample.  The line `@@@` is neither blank nor a
comment and matches no structural pattern of the scripts format, yet
`parseScripts` silently drops it and succeeds with an empty record list
instead of failing: not every parser reports malformed lines. -/
theorem C4_counterexample :
    parseScripts ("@@@".toList) = []
    ∧ linesFilter (splitOnChar '\n' ("@@@".toList)) = ["@@@".toList]
    ∧ scriptLineMatch ("@@@".toList) = none := by
  exact ⟨rfl, by decide, rfl⟩

/-- Witness for the amended claim C4: a comment line between two block
lines is skipped by both parsers, and a malformed line makes `parseBlocks`
fail with an error naming it. -/
theorem C4_witness :
    (parseBlocksLines (linesFilter (["0000..007F; Basic Latin".toList] ++
        "# note".toList :: ["0080..00FF; Latin-1".toList])) =
      parseBlocksLines (linesFilter (["0000..007F; Basic Latin".toList] ++
        ["0080..00FF; Latin-1".toList])))
    ∧ parseBlocksLines ["0000..007F; Basic Latin".toList, "garbage".toList] =
        .error (blockErrMsg ++ "garbage".toList) := by
  constructor
  · exact (C4_amended.1 ["0000..007F; Basic Latin".toList]
      ["0080..00FF; Latin-1".toList] ("# note".toList) (Or.inr (by decide))).1
  · obtain ⟨l2, hl2, hn2, he2⟩ := C4_amended.2.1
      ["0000..007F; Basic Latin".toList, "garbage".toList] ("garbage".toList)
      (by decide) (by decide)
    have hbad : l2 = "garbage".toList := by
      rcases List.mem_cons.mp hl2 with he | he
      · rw [he] at hn2; exact absurd hn2 (by decide)
      · simpa using he
    rw [hbad] at he2
    exact he2

/-!
Helper lemmas for the emoji-data parser.
-/

theorem hexCI_ne_semi {c : Char} (h : isHexDigitCI c = true) : c ≠ ';' := by
  intro he
  rw [he] at h
  exact absurd h (by decide)

theorem space_ne_semi {c : Char} (h : isJsSpace c = true) : c ≠ ';' := by
  intro he
  rw [he] at h
  exact absurd h (by decide)

theorem drop_length_takeWhile (p : Char → Bool) (l : List Char) :
    l.drop (l.takeWhile p).length = l.dropWhile p := by
  induction l with
  | nil => rfl
  | cons c l ih =>
    by_cases h : p c = true
    · simp [List.takeWhile_cons, List.dropWhile_cons, h, ih]
    · simp [List.takeWhile_cons, List.dropWhile_cons, h]

theorem dropWhile_until_semi :
    ∀ (a r : List Char), (∀ c ∈ a, c ≠ ';') →
      (a ++ ';' :: r).dropWhile (fun c => decide (c ≠ ';')) = ';' :: r := by
  intro a
  induction a with
  | nil => intro r _; simp [List.dropWhile_cons]
  | cons c a ih =>
    intro r ha
    have hc : c ≠ ';' := ha c (List.mem_cons_self c a)
    simp only [List.cons_append, List.dropWhile_cons]
    rw [if_pos (by simpa using hc)]
    exact ih r (fun x hx => ha x (List.mem_cons_of_mem _ hx))

theorem afterSemi_decomp (l a r3 : List Char) (hl : l = a ++ ';' :: r3)
    (ha : ∀ c ∈ a, c ≠ ';') :
    afterSemi l = r3.dropWhile isJsSpace := by
  unfold afterSemi
  rw [hl, dropWhile_until_semi a r3 ha]
  rfl

theorem dotsSplit_some {r0 r1 : List Char} (h : dotsSplit r0 = some r1) :
    r0 = '.' :: '.' :: r1 := by
  unfold dotsSplit at h
  split at h
  · injection h with h
    subst h
    rfl
  · exact absurd h (by simp)

theorem cpRangeSemi_spec (h1 : List Char) (h2 : Option (List Char)) (rem : List Char)
    (a : List Char) (b : Option (List Char)) (c : List Char)
    (h : cpRangeSemi h1 h2 rem = some (a, b, c)) :
    a = h1 ∧ b = h2 ∧
      ∃ r3, rem.dropWhile isJsSpace = ';' :: r3 ∧ c = r3.dropWhile isJsSpace := by
  unfold cpRangeSemi at h
  split at h
  · rename_i r3 heq
    simp only [Option.some.injEq, Prod.mk.injEq] at h
    exact ⟨h.1.symm, h.2.1.symm, r3, heq, h.2.2.symm⟩
  · exact absurd h (by simp)

/-- The shared regex prefix consumes exactly the text before the first `;`
of the line: a successful match decomposes the line into a `;`-free prefix,
the `;`, and a remainder whose whitespace-stripped form is the returned
rest. -/
theorem cpRangeMatch_decomp (l : List Char) (a : List Char) (b : Option (List Char))
    (c : List Char) (h : cpRangeMatch l = some (a, b, c)) :
    ∃ pre r3, l = pre ++ ';' :: r3 ∧ (∀ ch ∈ pre, ch ≠ ';') ∧
      c = r3.dropWhile isJsSpace := by
  unfold cpRangeMatch at h
  split at h
  · exact absurd h (by simp)
  · unfold cpRangeTail at h
    split at h
    · rename_i r1 hdots
      have hr0 : l.dropWhile isHexDigitCI = '.' :: '.' :: r1 := dotsSplit_some hdots
      split at h
      · obtain ⟨_, _, r3, hs, hc⟩ := cpRangeSemi_spec _ _ _ _ _ _ h
        rw [hr0, List.dropWhile_cons, if_neg (by decide)] at hs
        exact absurd hs (by simp)
      · obtain ⟨_, _, r3, hs, hc⟩ := cpRangeSemi_spec _ _ _ _ _ _ h
        refine ⟨l.takeWhile isHexDigitCI ++ '.' :: '.' ::
          (r1.takeWhile isHexDigitCI ++ (r1.dropWhile isHexDigitCI).takeWhile isJsSpace),
          r3, ?_, ?_, hc⟩
        · symm
          calc (l.takeWhile isHexDigitCI ++ '.' :: '.' ::
                (r1.takeWhile isHexDigitCI ++ (r1.dropWhile isHexDigitCI).takeWhile isJsSpace))
                ++ ';' :: r3
              = l.takeWhile isHexDigitCI ++ '.' :: '.' ::
                (r1.takeWhile isHexDigitCI ++
                  ((r1.dropWhile isHexDigitCI).takeWhile isJsSpace ++ ';' :: r3)) := by
                simp [List.append_assoc]
            _ = l.takeWhile isHexDigitCI ++ '.' :: '.' ::
                (r1.takeWhile isHexDigitCI ++ r1.dropWhile isHexDigitCI) := by
                rw [show (r1.dropWhile isHexDigitCI).takeWhile isJsSpace ++ ';' :: r3 =
                    r1.dropWhile isHexDigitCI from by
                  rw [← hs]; exact List.takeWhile_append_dropWhile _ _]
            _ = l.takeWhile isHexDigitCI ++ '.' :: '.' :: r1 := by
                rw [List.takeWhile_append_dropWhile]
            _ = l.takeWhile isHexDigitCI ++ l.dropWhile isHexDigitCI := by rw [hr0]
            _ = l := List.takeWhile_append_dropWhile _ _
        · intro ch hch
          rcases List.mem_append.mp hch with hm | hm
          · exact hexCI_ne_semi (List.mem_takeWhile_imp hm)
          · rcases List.mem_cons.mp hm with he | hm
            · subst he; decide
            · rcases List.mem_cons.mp hm with he | hm
              · subst he; decide
              · rcases List.mem_append.mp hm with hm2 | hm2
                · exact hexCI_ne_semi (List.mem_takeWhile_imp hm2)
                · exact space_ne_semi (List.mem_takeWhile_imp hm2)
    · obtain ⟨_, _, r3, hs, hc⟩ := cpRangeSemi_spec _ _ _ _ _ _ h
      refine ⟨l.takeWhile isHexDigitCI ++ (l.dropWhile isHexDigitCI).takeWhile isJsSpace,
        r3, ?_, ?_, hc⟩
      · symm
        calc (l.takeWhile isHexDigitCI ++ (l.dropWhile isHexDigitCI).takeWhile isJsSpace)
              ++ ';' :: r3
            = l.takeWhile isHexDigitCI ++
              ((l.dropWhile isHexDigitCI).takeWhile isJsSpace ++ ';' :: r3) := by
              simp [List.append_assoc]
          _ = l.takeWhile isHexDigitCI ++ l.dropWhile isHexDigitCI := by
              rw [show (l.dropWhile isHexDigitCI).takeWhile isJsSpace ++ ';' :: r3 =
                  l.dropWhile isHexDigitCI from by
                rw [← hs]; exact List.takeWhile_append_dropWhile _ _]
          _ = l := List.takeWhile_append_dropWhile _ _
      · intro ch hch
        rcases List.mem_append.mp hch with hm | hm
        · exact hexCI_ne_semi (List.mem_takeWhile_imp hm)
        · exact space_ne_semi (List.mem_takeWhile_imp hm)

theorem cpRangeMatch_afterSemi (l a : List Char) (b : Option (List Char)) (c : List Char)
    (h : cpRangeMatch l = some (a, b, c)) :
    afterSemi l = c := by
  obtain ⟨pre, r3, hl, hpre, hc⟩ := cpRangeMatch_decomp l a b c h
  rw [afterSemi_decomp l pre r3 hl hpre, hc]

/-- A line the emoji regex matches carries, right after its first `;` and
optional whitespace, the letters of `Emoji` up to case, followed by a word
boundary. -/
theorem emojiLineMatch_token (l : List Char) (p : List Char × Option (List Char))
    (h : emojiLineMatch l = some p) :
    ((afterSemi l).take 5).map Char.toLower = "emoji".toList ∧
      ((afterSemi l).drop 5 = [] ∨
        isWordChar (((afterSemi l).drop 5).headD ' ') = false) := by
  unfold emojiLineMatch at h
  cases hc : cpRangeMatch l with
  | none => rw [hc] at h; exact absurd h (by simp)
  | some t =>
    obtain ⟨h1, h2, rest⟩ := t
    rw [hc] at h
    dsimp only at h
    have haf := cpRangeMatch_afterSemi l h1 h2 rest hc
    rw [haf]
    by_cases he : (rest.take 5).map Char.toLower = "emoji".toList
    · refine ⟨he, ?_⟩
      rw [if_pos he] at h
      cases hd : rest.drop 5 with
      | nil => exact Or.inl rfl
      | cons c0 cs =>
        rw [hd] at h
        dsimp only at h
        by_cases hw : isWordChar c0 = true
        · rw [if_pos hw] at h
          exact absurd h (by simp)
        · right
          simpa using hw
    · rw [if_neg he] at h
      exact absurd h (by simp)

theorem mem_intRangeIncl {f l c : ℤ} :
    c ∈ intRangeIncl (some f) (some l) ↔ f ≤ c ∧ c ≤ l := by
  unfold intRangeIncl
  rw [List.mem_map]
  constructor
  · rintro ⟨k, hk, he⟩
    rw [List.mem_range] at hk
    omega
  · rintro ⟨hb1, hb2⟩
    refine ⟨(c - f).toNat, ?_, ?_⟩
    · rw [List.mem_range]; omega
    · omega

theorem mem_parseEmojiLines :
    ∀ (ls : List (List Char)) (cp : ℤ),
      cp ∈ parseEmojiLines ls ↔
        ∃ l ∈ ls, ∃ g1 g2, emojiLineMatch l = some (g1, g2) ∧
          (captureRange g1 g2).1 ≤ cp ∧ cp ≤ (captureRange g1 g2).2 := by
  intro ls cp
  induction ls with
  | nil => simp [parseEmojiLines]
  | cons a ls ih =>
    cases hm : emojiLineMatch a with
    | none =>
      unfold parseEmojiLines
      rw [hm, ih]
      constructor
      · rintro ⟨l, hl, rest⟩
        exact ⟨l, List.mem_cons_of_mem _ hl, rest⟩
      · rintro ⟨l, hl, g1, g2, hmm, hb⟩
        rcases List.mem_cons.mp hl with he | he
        · subst he; rw [hm] at hmm; exact absurd hmm (by simp)
        · exact ⟨l, he, g1, g2, hmm, hb⟩
    | some p =>
      obtain ⟨g1, g2⟩ := p
      unfold parseEmojiLines
      rw [hm]
      dsimp only
      rw [List.mem_append, ih, mem_intRangeIncl]
      constructor
      · rintro (hb | ⟨l, hl, k1, k2, hmm, hbnd⟩)
        · exact ⟨a, List.mem_cons_self a ls, g1, g2, hm, hb⟩
        · exact ⟨l, List.mem_cons_of_mem _ hl, k1, k2, hmm, hbnd⟩
      · rintro ⟨l, hl, k1, k2, hmm, hbnd⟩
        rcases List.mem_cons.mp hl with he | he
        · subst he
          rw [hm] at hmm
          simp only [Option.some.injEq, Prod.mk.injEq] at hmm
          left
          rw [hmm.1, hmm.2]
          exact hbnd
        · exact Or.inr ⟨l, he, k1, k2, hmm, hbnd⟩

/-- Claim C6, amended.  The emoji parser marks a codepoint exactly when
some non-blank, non-comment line matching the emoji regex covers it, where
the regex demands, after the codepoint or range and the `;`, the letters of
`Emoji` compared case-insensitively up to a word boundary; properties such
as `Extended_Pictographic` or `Emoji_Presentation` therefore never match,
but differently cased or space-extended value fields do. -/
theorem C6_amended (content : List Char) (cp : ℤ) :
    (cp ∈ parseEmojiData content ↔
      ∃ l ∈ linesFilter (splitOnChar '\n' content), ∃ g1 g2,
        emojiLineMatch l = some (g1, g2) ∧
        (captureRange g1 g2).1 ≤ cp ∧ cp ≤ (captureRange g1 g2).2)
    ∧ (∀ l ∈ linesFilter (splitOnChar '\n' content), ∀ p,
        emojiLineMatch l = some p →
        ((afterSemi l).take 5).map Char.toLower = "emoji".toList ∧
          ((afterSemi l).drop 5 = [] ∨
            isWordChar (((afterSemi l).drop 5).headD ' ') = false)) := by
  constructor
  · exact mem_parseEmojiLines _ cp
  · intro l _ p hp
    exact emojiLineMatch_token l p hp

/-- Claim C6, counterexample.  The emoji regex carries the `i` flag and
stops at a word boundary, so the line `1F600;emoji` (token `emoji`, not
exactly `Emoji`) and the line `1F601;Emoji qualifier` (field
`Emoji qualifier`, not exactly `Emoji`) both set the emoji flag. -/
theorem C6_counterexample :
    ((0x1F600 : ℤ) ∈ parseEmojiData emojiCexContent)
    ∧ ((0x1F601 : ℤ) ∈ parseEmojiData emojiCexContent)
    ∧ (splitOnChar ';' ("1F600;emoji".toList)).get? 1 = some ("emoji".toList)
    ∧ "emoji".toList ≠ "Emoji".toList
    ∧ (splitOnChar ';' ("1F601;Emoji qualifier".toList)).get? 1 =
        some ("Emoji qualifier".toList)
    ∧ trimL ("Emoji qualifier".toList) ≠ "Emoji".toList := by
  refine ⟨by decide, by decide, by decide, by decide, by decide, by decide⟩

/-- Witness for the amended claim C6: the range line marks 0x1F601 as
emoji, while the `Extended_Pictographic` line leaves 0x2764 unmarked. -/
theorem C6_witness :
    ((0x1F601 : ℤ) ∈ parseEmojiData emojiDemoContent)
    ∧ ¬ ((0x2764 : ℤ) ∈ parseEmojiData emojiDemoContent) := by
  constructor
  · exact (C6_amended emojiDemoContent 0x1F601).1.mpr
      ⟨"1F600..1F603 ; Emoji # four faces".toList, by decide,
        "1F600".toList, some ("1F603".toList), by decide, by decide, by decide⟩
  · decide

/-!
Helper lemmas for the First/Last range expansion.
-/

theorem leadsWith_append_self : ∀ (x y : List Char), leadsWith (x ++ y) x = true := by
  intro x
  induction x with
  | nil => intro y; cases y <;> rfl
  | cons c x ih =>
    intro y
    simp only [List.cons_append, leadsWith]
    simp [List.append_eq, ih y]

theorem endsWithL_append (a b : List Char) : endsWithL (a ++ b) b = true := by
  unfold endsWithL
  rw [List.reverse_append]
  exact leadsWith_append_self b.reverse a.reverse

theorem firstSuffix_endsWith (X : List Char) :
    endsWithL ('<' :: (X ++ firstSuffix)) firstSuffix = true := by
  have h : '<' :: (X ++ firstSuffix) = ('<' :: X) ++ firstSuffix := by simp
  rw [h]
  exact endsWithL_append _ _

theorem lastSuffix_endsWith (X : List Char) :
    endsWithL ('<' :: (X ++ lastSuffix)) lastSuffix = true := by
  have h : '<' :: (X ++ lastSuffix) = ('<' :: X) ++ lastSuffix := by simp
  rw [h]
  exact endsWithL_append _ _

theorem lastSuffix_not_first (X : List Char) :
    endsWithL ('<' :: (X ++ lastSuffix)) firstSuffix = false := by
  unfold endsWithL
  have h1 : ('<' :: (X ++ lastSuffix)).reverse =
      lastSuffix.reverse ++ (X.reverse ++ ['<']) := by
    simp [List.reverse_cons, List.reverse_append, List.append_assoc]
  rw [h1]
  have h2 : lastSuffix.reverse = '>' :: 't' :: 's' :: 'a' :: 'L' :: ' ' :: ',' :: [] := rfl
  have h3 : firstSuffix.reverse = '>' :: 't' :: 's' :: 'r' :: 'i' :: 'F' :: ' ' :: ',' :: [] := rfl
  rw [h2, h3]
  simp [leadsWith]

theorem occursAt_head {hay pat : List Char} {i : ℕ} (h : occursAtB hay pat i = true)
    {c : Char} (hc : pat.get? 0 = some c) : hay.get? i = some c := by
  unfold occursAtB at h
  simp only [Bool.and_eq_true, decide_eq_true_eq] at h
  obtain ⟨h1, h2⟩ := h
  have hp : 0 < pat.length := by
    cases pat with
    | nil => exact absurd hc (by simp)
    | cons a t => simp
  have h3 := congrArg (fun t => t.get? 0) h2
  simp only [List.get?_eq_getElem?, List.getElem?_take, List.getElem?_drop] at h3
  rw [if_pos hp] at h3
  rw [List.get?_eq_getElem? pat 0] at hc
  rw [hc] at h3
  rw [List.get?_eq_getElem?]
  simpa using h3

theorem jsReplaceFirst_strip_first (X : List Char) (hX : ',' ∉ X) :
    jsReplaceFirst ('<' :: (X ++ firstSuffix)) firstSuffix [] = '<' :: X := by
  have hocc : occursAtB ('<' :: (X ++ firstSuffix)) firstSuffix (X.length + 1) = true := by
    unfold occursAtB
    simp only [Bool.and_eq_true, decide_eq_true_eq]
    constructor
    · simp [firstSuffix]
    · rw [List.drop_succ_cons, List.drop_left, List.take_length]
  have hmin : ∀ j, 0 ≤ j → j < X.length + 1 →
      occursAtB ('<' :: (X ++ firstSuffix)) firstSuffix j = false := by
    intro j _ hj
    by_contra hocc2
    simp only [Bool.not_eq_false] at hocc2
    have hhead := occursAt_head hocc2 (show firstSuffix.get? 0 = some ',' from rfl)
    cases j with
    | zero =>
      rw [List.get?_cons_zero] at hhead
      exact absurd hhead (by decide)
    | succ k =>
      have hk : k < X.length := by omega
      rw [List.get?_eq_getElem?] at hhead
      simp only [List.getElem?_cons_succ] at hhead
      rw [List.getElem?_append, if_pos hk] at hhead
      exact hX (List.get?_mem (by rw [List.get?_eq_getElem?]; exact hhead))
  have hidx : jsIndexOf ('<' :: (X ++ firstSuffix)) firstSuffix 0 = some (X.length + 1) :=
    jsIndexOf_found (Nat.zero_le _) hocc hmin
  unfold jsReplaceFirst
  rw [hidx]
  dsimp only
  rw [List.take_succ_cons, List.take_left]
  have hlen : X.length + 1 + firstSuffix.length = ('<' :: (X ++ firstSuffix)).length := by
    simp
    omega
  rw [hlen, List.drop_length]
  simp

theorem jsReplaceFirst_lt (X : List Char) :
    jsReplaceFirst ('<' :: X) ['<'] [] = X := by
  have hidx : jsIndexOf ('<' :: X) ['<'] 0 = some 0 := by
    apply jsIndexOf_found (Nat.le_refl 0)
    · simp [occursAtB]
    · intro j h1 h2
      exact absurd h2 (by omega)
  unfold jsReplaceFirst
  rw [hidx]
  dsimp only
  simp

theorem pudStep_openRange (rs : Option RangeStart) (lineF X : List Char) (f : Option ℤ)
    (hname : (splitOnChar ';' lineF).get? 1 = some ('<' :: (X ++ firstSuffix)))
    (hcp : jsParseIntHex ((splitOnChar ';' lineF).headD []) = f)
    (hX : ',' ∉ X) :
    pudStep rs lineF = .ok (some ⟨f, X⟩, []) := by
  unfold pudStep
  rw [hname]
  dsimp only
  rw [if_pos (firstSuffix_endsWith X)]
  rw [hcp, jsReplaceFirst_strip_first X hX, jsReplaceFirst_lt X]

theorem pudStep_closeRange (r : RangeStart) (lineL X : List Char) (l : Option ℤ)
    (hname : (splitOnChar ';' lineL).get? 1 = some ('<' :: (X ++ lastSuffix)))
    (hcp : jsParseIntHex ((splitOnChar ';' lineL).headD []) = l) :
    pudStep (some r) lineL = .ok (none, rangeRecords r.name r.codepoint l
      ((splitOnChar ';' lineL).get? 2) ((splitOnChar ';' lineL).get? 4)) := by
  unfold pudStep
  rw [hname]
  dsimp only
  rw [if_neg (by rw [lastSuffix_not_first X]; simp)]
  rw [if_pos (lastSuffix_endsWith X)]
  rw [hcp]

theorem pudRun_cons (rs : Option RangeStart) (l : List Char) (ls : List (List Char)) :
    pudRun rs (l :: ls) = match pudStep rs l with
      | .error e => .error e
      | .ok (rs2, recs) =>
        match pudRun rs2 ls with
        | .error e => .error e
        | .ok (rs3, recs2) => .ok (rs3, recs ++ recs2) := rfl

theorem pudRun_append :
    ∀ (xs ys : List (List Char)) (rs : Option RangeStart),
      pudRun rs (xs ++ ys) =
        match pudRun rs xs with
        | .error e => .error e
        | .ok (rs2, recs) =>
          match pudRun rs2 ys with
          | .error e => .error e
          | .ok (rs3, recs2) => .ok (rs3, recs ++ recs2) := by
  intro xs
  induction xs with
  | nil =>
    intro ys rs
    rw [List.nil_append, show pudRun rs ([] : List (List Char)) = .ok (rs, []) from rfl]
    dsimp only
    cases h : pudRun rs ys with
    | error e => rfl
    | ok p =>
      obtain ⟨rs3, recs⟩ := p
      simp
  | cons x xs ih =>
    intro ys rs
    rw [List.cons_append, pudRun_cons rs x (xs ++ ys), pudRun_cons rs x xs]
    cases hs : pudStep rs x with
    | error e => rfl
    | ok p =>
      obtain ⟨rs2, recs1⟩ := p
      dsimp only
      rw [ih ys rs2]
      cases h2 : pudRun rs2 xs with
      | error e => rfl
      | ok p2 =>
        obtain ⟨rs3, recs2⟩ := p2
        dsimp only
        cases h3 : pudRun rs3 ys with
        | error e => rfl
        | ok p3 =>
          obtain ⟨rs4, recs3⟩ := p3
          dsimp only
          rw [List.append_assoc]

theorem intRangeIncl_nodup (f l : ℤ) : (intRangeIncl (some f) (some l)).Nodup := by
  unfold intRangeIncl
  exact (List.nodup_range _).map (fun a b h => by omega)

theorem rangeRecords_countP (base : List Char) (f l c : ℤ) (cat bid : Option (List Char))
    (hb : f ≤ c) (hb2 : c ≤ l) :
    (rangeRecords base (some f) (some l) cat bid).countP
      (fun r => decide (r.codepoint = some c)) = 1 := by
  unfold rangeRecords
  rw [List.countP_map]
  calc List.countP _ (intRangeIncl (some f) (some l))
      = List.countP (fun x : ℤ => x == c) (intRangeIncl (some f) (some l)) :=
        List.countP_congr (fun x _ => by simp [Function.comp, beq_iff_eq])
    _ = List.count c (intRangeIncl (some f) (some l)) := (List.count_eq_countP c _).symm
    _ = 1 := List.count_eq_one_of_mem (intRangeIncl_nodup f l)
        (mem_intRangeIncl.mpr ⟨hb, hb2⟩)

/-- Claim C2.  When the filtered primary-table lines contain an opener
whose name field is the literal form of `<X, First>` immediately followed
by a closer whose name field is the form of `<X, Last>` (with hexadecimal
codepoint fields parsing to `f` and `l`, and `X` comma-free so that the
form is unambiguous), the parser emits, between the records of the
surrounding lines, exactly one record per codepoint of `[f, l]`: each with
the generated name `X-{uppercase hex, zero-padded to at least 4 digits}`,
a null decomposition type and an empty decomposition mapping (hence no
decomposition edge). -/
theorem C2_theorem (pre post : List (List Char)) (preRecs : List CharacterData)
    (X lineF lineL : List Char) (f l : ℤ)
    (hpre : pudRun none pre = .ok (none, preRecs))
    (hnameF : (splitOnChar ';' lineF).get? 1 = some ('<' :: (X ++ firstSuffix)))
    (hcpF : jsParseIntHex ((splitOnChar ';' lineF).headD []) = some f)
    (hnameL : (splitOnChar ';' lineL).get? 1 = some ('<' :: (X ++ lastSuffix)))
    (hcpL : jsParseIntHex ((splitOnChar ';' lineL).headD []) = some l)
    (hX : ',' ∉ X) :
    pudLines (pre ++ lineF :: lineL :: post) =
      (pudLines post).map (fun recs => preRecs ++
        rangeRecords X (some f) (some l)
          ((splitOnChar ';' lineL).get? 2) ((splitOnChar ';' lineL).get? 4) ++ recs)
    ∧ (∀ c : ℤ, f ≤ c → c ≤ l →
        (rangeRecords X (some f) (some l) ((splitOnChar ';' lineL).get? 2)
          ((splitOnChar ';' lineL).get? 4)).countP
          (fun r => decide (r.codepoint = some c)) = 1)
    ∧ (∀ r ∈ rangeRecords X (some f) (some l) ((splitOnChar ';' lineL).get? 2)
          ((splitOnChar ';' lineL).get? 4),
        r.decompositionType = none ∧ r.decompositionMapping = [] ∧
          ∃ c : ℤ, f ≤ c ∧ c ≤ l ∧ r.codepoint = some c ∧
            r.name = some (X ++ '-' :: padStartL (upperL (intToHexLower c)) 4 '0')) := by
  have hstepF := pudStep_openRange none lineF X (some f) hnameF hcpF hX
  have hstepL := pudStep_closeRange ⟨some f, X⟩ lineL X (some l) hnameL hcpL
  refine ⟨?_, fun c h1 h2 => rangeRecords_countP X f l c _ _ h1 h2, ?_⟩
  · unfold pudLines
    rw [pudRun_append pre (lineF :: lineL :: post) none, hpre]
    dsimp only
    rw [pudRun_cons none lineF (lineL :: post), hstepF]
    dsimp only
    rw [pudRun_cons (some ⟨some f, X⟩) lineL post, hstepL]
    dsimp only
    cases hp : pudRun none post with
    | error e => rfl
    | ok p =>
      obtain ⟨rs3, recs2⟩ := p
      dsimp only [Except.map]
      simp
  · intro r hr
    unfold rangeRecords at hr
    rw [List.mem_map] at hr
    obtain ⟨c, hc, he⟩ := hr
    obtain ⟨hc1, hc2⟩ := mem_intRangeIncl.mp hc
    subst he
    exact ⟨rfl, rfl, c, hc1, hc2, rfl, rfl⟩

/-- Witness for claim C2 at a concrete two-line table: base `K`, range
`[2, 4]` expands to three records. -/
theorem C2_witness :
    pudLines pudDemoLines = .ok ([] ++ rangeRecords ("K".toList) (some 2) (some 4)
      ((splitOnChar ';' ("4;<K, Last>;Lo;0;L".toList)).get? 2)
      ((splitOnChar ';' ("4;<K, Last>;Lo;0;L".toList)).get? 4) ++ []) := by
  have h := (C2_theorem [] [] [] ("K".toList)
    ("2;<K, First>;Lo;0;L".toList) ("4;<K, Last>;Lo;0;L".toList) 2 4
    rfl (by decide) (by decide) (by decide) (by decide) (by decide)).1
  exact h.trans (by rfl)

end Unicode3
